import Mathlib

/-!
# textbackend: a verification development of `textcontent.go`

A shallow embedding of the Go package `textbackend` (file `textcontent.go`).

Conventions of the embedding.

* A Go `string` (and a `[]byte`) is a finite sequence of bytes: `GoString = List UInt8`.
* A Go slice `[]TextRow` is `Option (List TextRow)`: `none` is the nil slice, `some l` a
  non-nil slice holding `l`.  `len` of both `none` and `some []` is `0`.
* `uint8` values are natural numbers; arithmetic that can overflow is written with an
  explicit `% 256`.
* Methods with a pointer receiver that assign through the receiver are functions
  `TextContent → TextContent`; a method that can hit a Go run-time panic returns
  `Option TextContent`, where `none` is the panic.
* The type `TextRow` and its functions `GetString` and `NewTextRowFromString` live in a file
  of the package that is not part of the sources at hand; they are modelled from the
  specification and marked as such.
-/

namespace TextBackend

/-- A Go string: a sequence of bytes. -/
abbrev GoString := List UInt8

/-- The bytes of an ASCII literal (used only to write down concrete examples). -/
def lit (s : String) : GoString := s.data.map (fun c => c.toNat.toUInt8)

/-! ## Go library functions used by the package -/

/-- Go `strings.HasPrefix(s, prefix)`. -/
def HasPrefix (s pre : GoString) : Bool := pre.isPrefixOf s

/-- Go `strings.Repeat(s, count)` for a non-negative count. -/
def Repeat (s : GoString) : Nat → GoString
  | 0 => []
  | n + 1 => s ++ Repeat s n

/-- Go `strings.Index(s, substr)`: the index of the first instance of `substr` in `s`;
`none` stands for the result `-1` (no instance). -/
def Index : GoString → GoString → Option Nat
  | [], sep => if HasPrefix [] sep then some 0 else none
  | b :: s, sep =>
    if HasPrefix (b :: s) sep then some 0
    else (Index s sep).map (fun m => m + 1)

/-- Go `strings.Contains(s, substr)`, that is `Index(s, substr) >= 0`. -/
def Contains (s substr : GoString) : Bool := (Index s substr).isSome

/-- The loop of Go `strings.Count(s, substr)` for a non-empty `substr`:
repeatedly find the next instance and continue after it.  The fuel bounds the number
of iterations; `len(s)` always suffices since every iteration consumes at least one byte. -/
def countLoop (sep : GoString) : Nat → GoString → Nat → Nat
  | 0, _, n => n
  | fuel + 1, s, n =>
    match Index s sep with
    | none => n
    | some i => countLoop sep fuel (s.drop (i + sep.length)) (n + 1)

/-- The size in bytes of the first UTF-8 encoded rune of a non-empty string, as reported by
Go `utf8.DecodeRuneInString` (an invalid or truncated encoding has size 1). -/
def runeSize (s : GoString) : Nat :=
  match s with
  | [] => 0
  | s0 :: rest =>
    let b := s0.toNat
    if b < 0x80 then 1
    else if b < 0xC2 then 1
    else if 0xF4 < b then 1
    else
      let sz := if b < 0xE0 then 2 else if b < 0xF0 then 3 else 4
      let lo := if b = 0xE0 then 0xA0 else if b = 0xF0 then 0x90 else 0x80
      let hi := if b = 0xED then 0x9F else if b = 0xF4 then 0x8F else 0xBF
      if (s0 :: rest).length < sz then 1
      else
        match rest with
        | [] => 1
        | s1 :: rest1 =>
          if s1.toNat < lo ∨ hi < s1.toNat then 1
          else if sz ≤ 2 then 2
          else
            match rest1 with
            | [] => 1
            | s2 :: rest2 =>
              if s2.toNat < 0x80 ∨ 0xBF < s2.toNat then 1
              else if sz ≤ 3 then 3
              else
                match rest2 with
                | [] => 1
                | s3 :: _ =>
                  if s3.toNat < 0x80 ∨ 0xBF < s3.toNat then 1 else 4

/-- Go `strings.explode(s, -1)`: split `s` into its UTF-8 sequences, one string per rune.
The fuel bounds the number of runes; `len(s)` always suffices. -/
def explode : Nat → GoString → List GoString
  | 0, _ => []
  | fuel + 1, s =>
    if s = [] then []
    else s.take (runeSize s) :: explode fuel (s.drop (runeSize s))

/-- Go `strings.Count(s, substr)`. -/
def Count (s sep : GoString) : Nat :=
  if sep = [] then (explode s.length s).length + 1
  else countLoop sep s.length s 0

/-- The loop of Go `strings.genSplit` for a non-empty separator: at most `n` cuts, the
remainder of the string being the last element. -/
def splitLoop (sep : GoString) : Nat → GoString → List GoString
  | 0, s => [s]
  | n + 1, s =>
    match Index s sep with
    | none => [s]
    | some m => s.take m :: splitLoop sep n (s.drop (m + sep.length))

/-- Go `strings.Split(s, sep)`, that is `genSplit(s, sep, 0, -1)`: with an empty separator
the string is exploded into its UTF-8 sequences, otherwise it is cut at the
`Count(s, sep)` non-overlapping instances of `sep`, found from left to right. -/
def Split (s sep : GoString) : List GoString :=
  if sep = [] then explode s.length s
  else splitLoop sep (min (Count s sep + 1) (s.length + 1) - 1) s

/-! ## TextRow (modelled from the specification) -/

/-- Modelled from the spec: the struct `TextRow`, whose declaration is not part of the
sources at hand.  A row holds an indentation depth `Level` (a `uint8`, as the literal
`TextRow{t.CurrentLevel, text}` in `Writeln` shows) and a text payload `Text`. -/
structure TextRow where
  Level : Nat
  Text : GoString
  deriving DecidableEq, Repr

/-- Modelled from the spec: `TextRow.GetString(whitespace)`, which is missing from the
sources: "returns `whitespace` repeated `level` times, concatenated with `text`". -/
def TextRow.GetString (r : TextRow) (whitespace : GoString) : GoString :=
  Repeat whitespace r.Level ++ r.Text

/-- Modelled from the spec: the loop of `NewTextRowFromString`, which is missing from the
sources: while `text` starts with the whitespace unit, strip one unit and increment the
`uint8` level.  The fuel bounds the number of iterations. -/
def stripLoop (whitespace : GoString) : Nat → GoString → Nat → TextRow
  | 0, text, level => { Level := level, Text := text }
  | fuel + 1, text, level =>
    if HasPrefix text whitespace then
      stripLoop whitespace fuel (text.drop whitespace.length) ((level + 1) % 256)
    else { Level := level, Text := text }

/-- Modelled from the spec: `NewTextRowFromString(raw, whitespace)`, which is missing from
the sources: "constructs a Row by stripping a caller-specified leading whitespace unit from
`raw` as many times as it occurs, incrementing a counted `level` for each strip, leaving the
remainder as `text`"; "if the whitespace token is the empty string, no stripping occurs and
`level` stays 0".  With a non-empty unit every strip removes at least one byte, so
`len(raw)` iterations always suffice. -/
def NewTextRowFromString (raw whitespace : GoString) : TextRow :=
  if whitespace = [] then { Level := 0, Text := raw }
  else stripLoop whitespace raw.length raw 0

/-! ## TextContent -/

/-- The struct `TextContent`: the rows (a Go slice, `none` when nil) and the current
level (a `uint8`). -/
structure TextContent where
  Rows : Option (List TextRow)
  CurrentLevel : Nat
  deriving DecidableEq, Repr

/-- The elements of a Go slice; a nil slice has none. -/
def elems (s : Option (List TextRow)) : List TextRow := s.getD []

/-- Go `len(s)` of a slice. -/
def len (s : Option (List TextRow)) : Nat := (elems s).length

/-- Go `append(s, r)`: appending to a nil slice gives a non-nil slice. -/
def append (s : Option (List TextRow)) (r : TextRow) : Option (List TextRow) :=
  some (elems s ++ [r])

/-- The in-place update `s[i].Text += text` of one element of a slice, for an index that is
in range. -/
def addTextAt : List TextRow → Nat → GoString → List TextRow
  | [], _, _ => []
  | r :: rs, 0, text => { r with Text := r.Text ++ text } :: rs
  | r :: rs, i + 1, text => r :: addTextAt rs i text

/-- The Go statement `s[i].Text += text` for an `int` index: a run-time panic (`none`) when
the index is out of range, the updated slice otherwise. -/
def indexAddText (s : Option (List TextRow)) (i : Int) (text : GoString) :
    Option (Option (List TextRow)) :=
  if 0 ≤ i ∧ i < (len s : Int) then some (s.map (fun l => addTextAt l i.toNat text)) else none

/-- `NewTextContent()`: a pointer to the zero value, `Rows` nil and `CurrentLevel` 0. -/
def NewTextContent : TextContent := { Rows := none, CurrentLevel := 0 }

/-- `AppendRow(r)`. -/
def AppendRow (t : TextContent) (r : TextRow) : TextContent :=
  { t with Rows := append t.Rows r }

/-- `Reset()`: `Rows` becomes the non-nil empty slice `[]TextRow{}`. -/
def Reset (t : TextContent) : TextContent :=
  { t with Rows := some [], CurrentLevel := 0 }

/-- `Writeln(text)`. -/
def Writeln (t : TextContent) (text : GoString) : TextContent :=
  { t with Rows := append t.Rows { Level := t.CurrentLevel, Text := text } }

/-- `Write(text)`: the index `len(t.Rows)-1` is in range in the first branch. -/
def Write (t : TextContent) (text : GoString) : TextContent :=
  if len t.Rows ≠ 0 then
    { t with Rows := t.Rows.map (fun l => addTextAt l (len t.Rows - 1) text) }
  else Writeln t text

/-- `WriteTo(row, text)`; `none` is the run-time panic of an index out of range. -/
def WriteTo (t : TextContent) (row : Int) (text : GoString) : Option TextContent :=
  if row ≥ 0 ∧ row ≤ (len t.Rows : Int) then
    (indexAddText t.Rows (row - 1) text).map (fun rows => { t with Rows := rows })
  else some t

/-- `PushLevel()`: `CurrentLevel++` on a `uint8`. -/
def PushLevel (t : TextContent) : TextContent :=
  { t with CurrentLevel := (t.CurrentLevel + 1) % 256 }

/-- `PopLevel()`. -/
def PopLevel (t : TextContent) : TextContent :=
  if t.CurrentLevel > 0 then { t with CurrentLevel := t.CurrentLevel - 1 } else t

/-- `GetLevel()`. -/
def GetLevel (t : TextContent) : Nat := t.CurrentLevel

/-- `SetLevel(depth)`; the parameter is a `uint8`. -/
def SetLevel (t : TextContent) (depth : Nat) : TextContent :=
  { t with CurrentLevel := depth }

/-- `GetTotalLines()`. -/
def GetTotalLines (t : TextContent) : Nat := len t.Rows

/-- `Get(linebreak, whitespace)`: the loop over the rows, appending to `buf`. -/
def Get (t : TextContent) (linebreak whitespace : GoString) : GoString :=
  (elems t.Rows).foldl (fun buf r => (buf ++ r.GetString whitespace) ++ linebreak) []

/-- `GetStringArray(whitespace)`: the loop over the rows, appending to `tmp`.  The method
has a pointer receiver; the second component is the receiver after the call. -/
def GetStringArray (t : TextContent) (whitespace : GoString) : List GoString × TextContent :=
  ((elems t.Rows).foldl (fun tmp r => tmp ++ [r.GetString whitespace]) [], t)

/-! ## Files -/

/-- A file system: the bytes stored under each file name, if any. -/
abbrev FileSystem := GoString → Option GoString

/-- An I/O error as returned by `ioutil.ReadFile`. -/
inductive IOError where
  | notExist
  deriving DecidableEq, Repr

/-- Go `ioutil.ReadFile(filename)`. -/
def ioReadFile (fs : FileSystem) (filename : GoString) : Except IOError GoString :=
  match fs filename with
  | some data => .ok data
  | none => .error .notExist

/-- Go `ioutil.WriteFile(filename, data, perm)` on a file system that accepts the write:
the file holds exactly `data` afterwards. -/
def ioWriteFile (fs : FileSystem) (filename data : GoString) (_perm : Nat) : FileSystem :=
  fun name => if name = filename then some data else fs name

/-- `ReadFile(filename, whitespace, linebreak)`: the content and the error. -/
def ReadFile (fs : FileSystem) (filename whitespace linebreak : GoString) :
    TextContent × Option IOError :=
  match ioReadFile fs filename with
  | .error err => (NewTextContent, some err)
  | .ok data =>
    ((Split data linebreak).foldl
      (fun c line => AppendRow c (NewTextRowFromString line whitespace)) NewTextContent, none)

/-- `WriteFile(filename, perm, linebreak, whitespace)`: the file system after the write. -/
def WriteFile (t : TextContent) (fs : FileSystem) (filename : GoString) (perm : Nat)
    (linebreak whitespace : GoString) : FileSystem :=
  ioWriteFile fs filename (Get t linebreak whitespace) perm

/-! ## Operation sequences -/

/-- One call among `Writeln`, `PushLevel`, `PopLevel` and `SetLevel`. -/
inductive LevelOp where
  | writeln (text : GoString)
  | pushLevel
  | popLevel
  | setLevel (depth : Nat)
  deriving DecidableEq, Repr

/-- The effect of one call. -/
def LevelOp.run (t : TextContent) : LevelOp → TextContent
  | .writeln text => Writeln t text
  | .pushLevel => PushLevel t
  | .popLevel => PopLevel t
  | .setLevel depth => SetLevel t depth

/-- The effect of a sequence of calls, in order. -/
def runOps (t : TextContent) (ops : List LevelOp) : TextContent :=
  ops.foldl LevelOp.run t

/-- The number of `Writeln` calls in a sequence. -/
def numWriteln : List LevelOp → Nat
  | [] => 0
  | .writeln _ :: ops => numWriteln ops + 1
  | _ :: ops => numWriteln ops

/-- One call of a mutating method of `TextContent` other than `Reset`. -/
inductive Op where
  | appendRow (r : TextRow)
  | writeln (text : GoString)
  | write (text : GoString)
  | writeTo (row : Int) (text : GoString)
  | pushLevel
  | popLevel
  | setLevel (depth : Nat)
  deriving DecidableEq, Repr

/-- The effect of one call; `none` is a run-time panic (only `WriteTo` can panic). -/
def Op.run (t : TextContent) : Op → Option TextContent
  | .appendRow r => some (AppendRow t r)
  | .writeln text => some (Writeln t text)
  | .write text => some (Write t text)
  | .writeTo row text => WriteTo t row text
  | .pushLevel => some (PushLevel t)
  | .popLevel => some (PopLevel t)
  | .setLevel depth => some (SetLevel t depth)

/-- The effect of a sequence of calls, in order; a panic ends the run. -/
def runAll (t : TextContent) : List Op → Option TextContent
  | [] => some t
  | op :: ops => (Op.run t op).bind (fun t' => runAll t' ops)

/-- Whether a call is one of `PushLevel`, `PopLevel`, `SetLevel`. -/
def Op.isLevelOp : Op → Bool
  | .pushLevel => true
  | .popLevel => true
  | .setLevel _ => true
  | _ => false

/-- What the caller can observe of a content: the results of `Get`, `GetStringArray`,
`GetTotalLines` and `GetLevel`. -/
def observe (linebreak whitespace : GoString) (t : TextContent) :
    GoString × List GoString × Nat × Nat :=
  (Get t linebreak whitespace, (GetStringArray t whitespace).1, GetTotalLines t, GetLevel t)

/-- The level cursor after one call, as far as `PushLevel`, `PopLevel` and `SetLevel`
change it; every other call leaves it alone. -/
def levelStep (level : Nat) : Op → Nat
  | .pushLevel => (level + 1) % 256
  | .popLevel => if level > 0 then level - 1 else level
  | .setLevel depth => depth
  | _ => level

/-- The level cursor after a sequence of calls, from a starting level. -/
def levelAfter (level : Nat) (ops : List Op) : Nat := ops.foldl levelStep level

/-! ## JSON -/

/-- The decimal digits of a `uint8`, as Go `encoding/json` writes an unsigned integer. -/
def decimal (n : Nat) : GoString :=
  if n < 10 then [(48 + n).toUInt8]
  else if n < 100 then [(48 + n / 10).toUInt8, (48 + n % 10).toUInt8]
  else [(48 + n / 100).toUInt8, (48 + n / 10 % 10).toUInt8, (48 + n % 10).toUInt8]

/-- Go `strings.Join(elems, sep)`. -/
def Join : List GoString → GoString → GoString
  | [], _ => []
  | [a], _ => a
  | a :: b :: rest, sep => a ++ sep ++ Join (b :: rest) sep

/-- The encoding of one `TextRow` by Go `encoding/json`: an object with the exported fields
in declaration order, under the names `Level` and `Text` the specification gives.  The
encoder of a JSON string (quoting and escaping, which depends on the Go version) is the
parameter `quote`. -/
def marshalRow (quote : GoString → GoString) (r : TextRow) : GoString :=
  lit "\x7b\"Level\":" ++ decimal r.Level ++ lit ",\"Text\":" ++ quote r.Text ++ lit "\x7d"

/-- Go `json.Marshal` of a `[]TextRow`: a nil slice is encoded as the JSON value `null`,
a non-nil slice as a JSON array of its elements.  No error can arise for this type. -/
def marshalRows (quote : GoString → GoString) : Option (List TextRow) → GoString
  | none => lit "null"
  | some rows => lit "[" ++ Join (rows.map (marshalRow quote)) (lit ",") ++ lit "]"

/-- An error as returned by `json.Marshal`. -/
inductive MarshalError where
  | unsupported
  deriving DecidableEq, Repr

/-- `GetJSON()`: the bytes and the error of `json.Marshal(t.Rows)`. -/
def GetJSON (quote : GoString → GoString) (t : TextContent) :
    GoString × Option MarshalError :=
  (marshalRows quote t.Rows, none)

/-! ## The literal split, as a relation -/

/-- The literal split of `s` on the separator `sep`, read from left to right: as long as
`sep` occurs, the text before its first instance is the next segment and the split goes on
behind that instance (so the instances cut at do not overlap); what is left when `sep` no
longer occurs is the last segment. -/
inductive IsSplit (sep : GoString) : GoString → List GoString → Prop
  | last (s : GoString) : Index s sep = none → IsSplit sep s [s]
  | cut (s : GoString) (m : Nat) (segs : List GoString) :
      Index s sep = some m → IsSplit sep (s.drop (m + sep.length)) segs →
      IsSplit sep s (s.take m :: segs)

/-- A separator that cannot overlap a shifted copy of itself: no proper non-empty suffix of
it is one of its prefixes.  Every one-byte separator is of this kind. -/
def SelfOverlapFree (sep : GoString) : Prop :=
  ∀ k : Nat, 0 < k → k < sep.length → ¬ (sep.drop k <+: sep)

/-! ## Lemmas on slices and rows -/

theorem length_addTextAt (l : List TextRow) (i : Nat) (text : GoString) :
    (addTextAt l i text).length = l.length := by
  induction l generalizing i with
  | nil => cases i <;> rfl
  | cons r rs ih =>
    cases i with
    | zero => rfl
    | succ i => simp [addTextAt, ih]

theorem getElem?_addTextAt (l : List TextRow) (i j : Nat) (text : GoString) :
    (addTextAt l i text)[j]? =
      if j = i then l[j]?.map (fun r => { r with Text := r.Text ++ text }) else l[j]? := by
  induction l generalizing i j with
  | nil => cases i <;> simp [addTextAt]
  | cons r rs ih =>
    cases i with
    | zero =>
      cases j with
      | zero => simp [addTextAt]
      | succ j => simp [addTextAt]
    | succ i =>
      cases j with
      | zero => simp [addTextAt]
      | succ j => simp [addTextAt, ih]

theorem elems_map_addTextAt (s : Option (List TextRow)) (i : Nat) (text : GoString) :
    elems (s.map (fun l => addTextAt l i text)) = addTextAt (elems s) i text := by
  cases s with
  | none => cases i <;> rfl
  | some l => rfl

theorem addTextAt_append_last (init : List TextRow) (last : TextRow) (text : GoString) :
    addTextAt (init ++ [last]) init.length text =
      init ++ [{ Level := last.Level, Text := last.Text ++ text }] := by
  induction init with
  | nil => rfl
  | cons r rs ih => simp [addTextAt, ih]

theorem foldl_render_eq (rows : List TextRow) (lb ws buf : GoString) :
    rows.foldl (fun buf r => (buf ++ r.GetString ws) ++ lb) buf =
      buf ++ (rows.map (fun r => Repeat ws r.Level ++ r.Text ++ lb)).flatten := by
  induction rows generalizing buf with
  | nil => simp
  | cons r rs ih =>
    rw [List.foldl_cons, ih]
    simp [TextRow.GetString, List.append_assoc]

theorem foldl_array_eq (rows : List TextRow) (ws : GoString) (tmp : List GoString) :
    rows.foldl (fun tmp r => tmp ++ [r.GetString ws]) tmp =
      tmp ++ rows.map (fun r => Repeat ws r.Level ++ r.Text) := by
  induction rows generalizing tmp with
  | nil => simp
  | cons r rs ih =>
    rw [List.foldl_cons, ih]
    simp [TextRow.GetString]

theorem len_runOps (t : TextContent) (ops : List LevelOp) :
    len (runOps t ops).Rows = len t.Rows + numWriteln ops := by
  induction ops generalizing t with
  | nil => rfl
  | cons op ops ih =>
    have h : runOps t (op :: ops) = runOps (op.run t) ops := rfl
    rw [h, ih]
    cases op with
    | writeln text => simp [LevelOp.run, Writeln, append, len, elems, numWriteln]; omega
    | pushLevel => simp [LevelOp.run, PushLevel, numWriteln]
    | popLevel =>
      simp only [LevelOp.run, PopLevel, numWriteln]
      split <;> rfl
    | setLevel depth => simp [LevelOp.run, SetLevel, numWriteln]

/-! ## Lemmas on splitting and on reading rows back -/

theorem Repeat_succ_right (s : GoString) (n : Nat) : Repeat s (n + 1) = Repeat s n ++ s := by
  induction n with
  | zero => simp [Repeat]
  | succ n ih =>
    calc Repeat s (n + 1 + 1) = s ++ Repeat s (n + 1) := rfl
      _ = s ++ (Repeat s n ++ s) := by rw [ih]
      _ = (s ++ Repeat s n) ++ s := by rw [List.append_assoc]
      _ = Repeat s (n + 1) ++ s := rfl

theorem HasPrefix_iff (s pre : GoString) : HasPrefix s pre = true ↔ pre <+: s := by
  simp [HasPrefix]

theorem HasPrefix_split (s pre : GoString) (h : HasPrefix s pre = true) :
    pre ++ s.drop pre.length = s := by
  obtain ⟨t, rfl⟩ := (HasPrefix_iff s pre).mp h
  simp

theorem Index_some_split (s sep : GoString) (m : Nat) (h : Index s sep = some m) :
    s.take m ++ (sep ++ s.drop (m + sep.length)) = s := by
  induction s generalizing m with
  | nil =>
    simp only [Index] at h
    split at h
    · rename_i hp
      have := HasPrefix_split [] sep hp
      simp at this
      simp [this]
    · cases h
  | cons b s ih =>
    simp only [Index] at h
    split at h
    · rename_i hp
      cases h
      simpa using HasPrefix_split (b :: s) sep hp
    · cases hi : Index s sep with
      | none => simp [hi] at h
      | some m' =>
        simp [hi] at h
        subst h
        have := ih m' hi
        have e : m' + 1 + sep.length = (m' + sep.length) + 1 := by omega
        rw [e]
        simp only [List.take_succ_cons, List.drop_succ_cons, List.cons_append]
        rw [this]

theorem splitLoop_concat (sep : GoString) (n : Nat) (s : GoString) :
    ((splitLoop sep n s).map (fun seg => seg ++ sep)).flatten = s ++ sep := by
  induction n generalizing s with
  | zero => simp [splitLoop]
  | succ n ih =>
    simp only [splitLoop]
    cases hi : Index s sep with
    | none => simp
    | some m =>
      simp only [List.map_cons, List.flatten_cons, ih]
      have := Index_some_split s sep m hi
      calc (s.take m ++ sep) ++ (s.drop (m + sep.length) ++ sep)
          = (s.take m ++ (sep ++ s.drop (m + sep.length))) ++ sep := by
            simp [List.append_assoc]
        _ = s ++ sep := by rw [this]

theorem stripLoop_render (ws : GoString) (fuel : Nat) (text : GoString) (level : Nat)
    (hlevel : level < 256)
    (h : HasPrefix text (Repeat ws (256 - level)) = false) :
    (stripLoop ws fuel text level).GetString ws = Repeat ws level ++ text := by
  induction fuel generalizing text level with
  | zero => rfl
  | succ fuel ih =>
    simp only [stripLoop]
    split
    · rename_i hp
      have hsplit := HasPrefix_split text ws hp
      have hlt : level + 1 < 256 := by
        by_contra hge
        have h255 : 256 - level = 1 := by omega
        rw [h255] at h
        simp [Repeat, hp] at h
      rw [Nat.mod_eq_of_lt hlt]
      have hrest : HasPrefix (text.drop ws.length) (Repeat ws (256 - (level + 1))) = false := by
        have e : 256 - level = (256 - (level + 1)) + 1 := by omega
        rw [e] at h
        rw [← hsplit] at h
        have hn : ¬ (ws ++ Repeat ws (256 - (level + 1)) <+: ws ++ text.drop ws.length) := by
          intro hc
          have := (HasPrefix_iff _ _).mpr hc
          simp only [Repeat] at h
          rw [this] at h
          cases h
        rw [List.prefix_append_right_inj] at hn
        cases hb : HasPrefix (text.drop ws.length) (Repeat ws (256 - (level + 1))) with
        | false => rfl
        | true => exact absurd ((HasPrefix_iff _ _).mp hb) hn
      rw [ih _ _ hlt hrest, Repeat_succ_right, List.append_assoc, hsplit]
    · rfl

/-- The fuel `len(text)` is enough for the stripping loop: with a non-empty whitespace unit
the loop ends because the leading-match check fails, not because the fuel ran out. -/
theorem stripLoop_stops (ws : GoString) (hws : ws ≠ []) (fuel : Nat) (text : GoString)
    (level : Nat) (hfuel : text.length ≤ fuel) :
    HasPrefix (stripLoop ws fuel text level).Text ws = false := by
  induction fuel generalizing text level with
  | zero =>
    have : text = [] := List.length_eq_zero.mp (Nat.le_zero.mp hfuel)
    subst this
    cases ws with
    | nil => exact absurd rfl hws
    | cons b bs => rfl
  | succ fuel ih =>
    simp only [stripLoop]
    split
    · apply ih
      have : 0 < ws.length := List.length_pos.mpr hws
      simp only [List.length_drop]
      omega
    · rename_i hp
      simpa using hp

theorem NewTextRowFromString_render (raw ws : GoString)
    (h : ws = [] ∨ HasPrefix raw (Repeat ws 256) = false) :
    (NewTextRowFromString raw ws).GetString ws = raw := by
  unfold NewTextRowFromString
  split
  · rename_i hws
    simp [TextRow.GetString, Repeat]
  · rename_i hws
    rcases h with h | h
    · exact absurd h hws
    · rw [stripLoop_render ws _ raw 0 (by omega) h]
      rfl

theorem elems_foldl_AppendRow (f : GoString → TextRow) (lines : List GoString)
    (c : TextContent) :
    elems (lines.foldl (fun c line => AppendRow c (f line)) c).Rows =
      elems c.Rows ++ lines.map f := by
  induction lines generalizing c with
  | nil => simp
  | cons l ls ih =>
    rw [List.foldl_cons, ih]
    simp [AppendRow, append, elems]

theorem Split_concat (s sep : GoString) (hsep : sep ≠ []) :
    ((Split s sep).map (fun seg => seg ++ sep)).flatten = s ++ sep := by
  unfold Split
  rw [if_neg hsep]
  exact splitLoop_concat sep _ s

theorem flatten_map_render_eq (segs : List GoString) (lb ws : GoString)
    (h : ∀ seg ∈ segs, (NewTextRowFromString seg ws).GetString ws = seg) :
    ((segs.map (fun seg => NewTextRowFromString seg ws)).map
        (fun r => Repeat ws r.Level ++ r.Text ++ lb)).flatten =
      (segs.map (fun seg => seg ++ lb)).flatten := by
  induction segs with
  | nil => rfl
  | cons seg segs ih =>
    have h1 := h seg (List.mem_cons_self _ _)
    have h2 := ih (fun s hs => h s (List.mem_cons_of_mem _ hs))
    simp only [List.map_cons, List.flatten_cons, h2]
    simp only [TextRow.GetString] at h1
    rw [h1]

theorem ioReadFile_ioWriteFile (fs : FileSystem) (filename data : GoString) (perm : Nat) :
    ioReadFile (ioWriteFile fs filename data perm) filename = .ok data := by
  simp [ioReadFile, ioWriteFile]

/-- Reading back a written file, for a non-empty linebreak: no error, and the rendering of
the content read is the rendering written followed by one more linebreak, as long as no
line of the file starts with 256 whitespace units. -/
theorem Get_ReadFile_WriteFile (c : TextContent) (fs : FileSystem) (path : GoString)
    (perm : Nat) (lb ws : GoString) (hlb : lb ≠ [])
    (hunits : ws = [] ∨
      ∀ seg ∈ Split (Get c lb ws) lb, HasPrefix seg (Repeat ws 256) = false) :
    (ReadFile (WriteFile c fs path perm lb ws) path ws lb).2 = none ∧
      Get (ReadFile (WriteFile c fs path perm lb ws) path ws lb).1 lb ws =
        Get c lb ws ++ lb := by
  have hread : ReadFile (WriteFile c fs path perm lb ws) path ws lb =
      ((Split (Get c lb ws) lb).foldl
        (fun c line => AppendRow c (NewTextRowFromString line ws)) NewTextContent, none) := by
    unfold ReadFile WriteFile
    rw [ioReadFile_ioWriteFile]
  rw [hread]
  refine ⟨rfl, ?_⟩
  have hseg : ∀ seg ∈ Split (Get c lb ws) lb,
      (NewTextRowFromString seg ws).GetString ws = seg := by
    intro seg hmem
    apply NewTextRowFromString_render
    rcases hunits with h | h
    · exact Or.inl h
    · exact Or.inr (h seg hmem)
  show Get _ lb ws = _
  generalize Get c lb ws = data at hseg ⊢
  unfold Get
  rw [foldl_render_eq, elems_foldl_AppendRow, List.nil_append]
  have : elems NewTextContent.Rows = [] := rfl
  rw [this, List.nil_append, flatten_map_render_eq _ lb ws hseg, Split_concat _ _ hlb]


/-- C1 (as the code behaves): for every content, also one with no rows, and every text,
`WriteTo(0, text)` passes the guard `row >= 0 && row <= len(t.Rows)` and then indexes
`t.Rows[-1]`, which is a run-time panic; it is not a no-op. -/
theorem WriteTo_zero_panics (t : TextContent) (text : GoString) :
    WriteTo t 0 text = none := by
  simp [WriteTo, indexAddText]

/-- C2: for every content, every text and every integer `row` with `row < 0` or
`row > len(Rows)`, `WriteTo(row, text)` does not panic and returns the content unchanged
(same rows, same `CurrentLevel`). -/
theorem WriteTo_out_of_range (t : TextContent) (row : Int) (text : GoString)
    (h : row < 0 ∨ (len t.Rows : Int) < row) : WriteTo t row text = some t := by
  unfold WriteTo
  rw [if_neg]
  omega

theorem WriteTo_out_of_range_witness :
    WriteTo { Rows := some [{ Level := 0, Text := lit "x" }], CurrentLevel := 3 }
        ((len (some [({ Level := 0, Text := lit "x" } : TextRow)]) : Int) + 1) (lit "y")
      = some { Rows := some [{ Level := 0, Text := lit "x" }], CurrentLevel := 3 } :=
  WriteTo_out_of_range _ _ _ (Or.inr (by decide))

/-- C3: for every content, every text and every `row` with `1 <= row <= len(Rows)`,
`WriteTo(row, text)` does not panic; in the result the row at 0-based index `row-1` has the
same `Level` and the old `Text` followed by `text`, every other row is the same, and the row
count, the nil-ness of `Rows` and `CurrentLevel` are unchanged. -/
theorem WriteTo_in_range (t : TextContent) (row : Int) (text : GoString)
    (h1 : 1 ≤ row) (h2 : row ≤ (len t.Rows : Int)) :
    ∃ t', WriteTo t row text = some t' ∧
      len t'.Rows = len t.Rows ∧
      t'.CurrentLevel = t.CurrentLevel ∧
      (t'.Rows.isSome = t.Rows.isSome) ∧
      (∀ i : Nat, i < len t.Rows →
        ((i : Int) = row - 1 →
          (elems t'.Rows)[i]? =
            (elems t.Rows)[i]?.map (fun r => { Level := r.Level, Text := r.Text ++ text })) ∧
        ((i : Int) ≠ row - 1 → (elems t'.Rows)[i]? = (elems t.Rows)[i]?)) := by
  refine ⟨{ t with Rows := t.Rows.map (fun l => addTextAt l (row - 1).toNat text) }, ?_, ?_, ?_,
    ?_, ?_⟩
  · unfold WriteTo indexAddText
    rw [if_pos (by omega), if_pos (by omega)]
    rfl
  · simp [len, elems_map_addTextAt, length_addTextAt]
  · rfl
  · simp
  · intro i _
    simp only [elems_map_addTextAt, getElem?_addTextAt]
    constructor
    · intro hi
      rw [if_pos (by omega)]
    · intro hi
      rw [if_neg (by omega)]

theorem WriteTo_in_range_witness :
    ∃ t', WriteTo { Rows := some [⟨0, lit "x"⟩, ⟨1, lit "y"⟩], CurrentLevel := 0 } 2 (lit "z")
        = some t' ∧
      len t'.Rows = len (some [(⟨0, lit "x"⟩ : TextRow), ⟨1, lit "y"⟩]) ∧
      t'.CurrentLevel = 0 ∧
      (t'.Rows.isSome = (some [(⟨0, lit "x"⟩ : TextRow), ⟨1, lit "y"⟩]).isSome) ∧
      (∀ i : Nat, i < len (some [(⟨0, lit "x"⟩ : TextRow), ⟨1, lit "y"⟩]) →
        ((i : Int) = 2 - 1 →
          (elems t'.Rows)[i]? =
            (elems (some [(⟨0, lit "x"⟩ : TextRow), ⟨1, lit "y"⟩]))[i]?.map
              (fun r => { Level := r.Level, Text := r.Text ++ lit "z" })) ∧
        ((i : Int) ≠ 2 - 1 →
          (elems t'.Rows)[i]? = (elems (some [(⟨0, lit "x"⟩ : TextRow), ⟨1, lit "y"⟩]))[i]?)) :=
  WriteTo_in_range { Rows := some [⟨0, lit "x"⟩, ⟨1, lit "y"⟩], CurrentLevel := 0 } 2 (lit "z")
    (by decide) (by decide)

/-! ## The round trip through a file -/

/-- C4 (as the code behaves): for every content `c`, every non-empty linebreak `lb` and
every whitespace `ws` such that no row text of `c` contains `lb`, and such that (for a
non-empty `ws`) no line of the written file starts with 256 copies of `ws`,
`WriteFile(path, perm, lb, ws)` followed by `ReadFile(path, ws, lb)` succeeds and yields a
content whose rendering `Get(lb, ws)` is `c.Get(lb, ws)` followed by one more `lb`; so the
rendering read back is never byte-for-byte equal to the rendering written. -/
theorem roundtrip_render_extra_linebreak (c : TextContent) (fs : FileSystem)
    (path : GoString) (perm : Nat) (lb ws : GoString) (hlb : lb ≠ [])
    (_htext : ∀ r ∈ elems c.Rows, Contains r.Text lb = false)
    (hunits : ws = [] ∨
      ∀ seg ∈ Split (Get c lb ws) lb, HasPrefix seg (Repeat ws 256) = false) :
    (ReadFile (WriteFile c fs path perm lb ws) path ws lb).2 = none ∧
      Get (ReadFile (WriteFile c fs path perm lb ws) path ws lb).1 lb ws =
        Get c lb ws ++ lb ∧
      Get (ReadFile (WriteFile c fs path perm lb ws) path ws lb).1 lb ws ≠ Get c lb ws := by
  obtain ⟨herr, hget⟩ := Get_ReadFile_WriteFile c fs path perm lb ws hlb hunits
  refine ⟨herr, hget, ?_⟩
  rw [hget]
  intro heq
  have hlen := congrArg List.length heq
  have hpos : 0 < lb.length := List.length_pos.mpr hlb
  simp only [List.length_append] at hlen
  omega

theorem roundtrip_render_extra_linebreak_witness :
    (ReadFile (WriteFile { Rows := some [⟨0, lit "x"⟩, ⟨1, lit "y"⟩], CurrentLevel := 0 }
        (fun _ => none) (lit "f") 420 (lit "\n") (lit "\t")) (lit "f") (lit "\t")
        (lit "\n")).2 = none ∧
      Get (ReadFile (WriteFile { Rows := some [⟨0, lit "x"⟩, ⟨1, lit "y"⟩], CurrentLevel := 0 }
        (fun _ => none) (lit "f") 420 (lit "\n") (lit "\t")) (lit "f") (lit "\t")
        (lit "\n")).1 (lit "\n") (lit "\t") =
        Get { Rows := some [⟨0, lit "x"⟩, ⟨1, lit "y"⟩], CurrentLevel := 0 }
          (lit "\n") (lit "\t") ++ lit "\n" ∧
      Get (ReadFile (WriteFile { Rows := some [⟨0, lit "x"⟩, ⟨1, lit "y"⟩], CurrentLevel := 0 }
        (fun _ => none) (lit "f") 420 (lit "\n") (lit "\t")) (lit "f") (lit "\t")
        (lit "\n")).1 (lit "\n") (lit "\t") ≠
        Get { Rows := some [⟨0, lit "x"⟩, ⟨1, lit "y"⟩], CurrentLevel := 0 }
          (lit "\n") (lit "\t") :=
  roundtrip_render_extra_linebreak
    { Rows := some [⟨0, lit "x"⟩, ⟨1, lit "y"⟩], CurrentLevel := 0 }
    (fun _ => none) (lit "f") 420 (lit "\n") (lit "\t") (by decide) (by decide)
    (Or.inr (by decide))

/-- C4 as stated fails: the rows `[{0,"x"},{1,"y"}]` written with linebreak `"\n"` and
whitespace `"\t"` satisfy the hypotheses (non-empty linebreak, no row text contains it),
the read succeeds, and the content read back renders to `"x\n\ty\n\n"`, which is not the
rendering `"x\n\ty\n"` of the original. -/
theorem roundtrip_render_counterexample :
    lit "\n" ≠ [] ∧
      (∀ r ∈ elems (some [(⟨0, lit "x"⟩ : TextRow), ⟨1, lit "y"⟩]),
        Contains r.Text (lit "\n") = false) ∧
      (ReadFile (WriteFile { Rows := some [⟨0, lit "x"⟩, ⟨1, lit "y"⟩], CurrentLevel := 0 }
        (fun _ => none) (lit "f") 420 (lit "\n") (lit "\t")) (lit "f") (lit "\t")
        (lit "\n")).2 = none ∧
      Get { Rows := some [⟨0, lit "x"⟩, ⟨1, lit "y"⟩], CurrentLevel := 0 }
        (lit "\n") (lit "\t") = lit "x\n\ty\n" ∧
      Get (ReadFile (WriteFile { Rows := some [⟨0, lit "x"⟩, ⟨1, lit "y"⟩], CurrentLevel := 0 }
        (fun _ => none) (lit "f") 420 (lit "\n") (lit "\t")) (lit "f") (lit "\t")
        (lit "\n")).1 (lit "\n") (lit "\t") = lit "x\n\ty\n\n" ∧
      Get (ReadFile (WriteFile { Rows := some [⟨0, lit "x"⟩, ⟨1, lit "y"⟩], CurrentLevel := 0 }
        (fun _ => none) (lit "f") 420 (lit "\n") (lit "\t")) (lit "f") (lit "\t")
        (lit "\n")).1 (lit "\n") (lit "\t") ≠
        Get { Rows := some [⟨0, lit "x"⟩, ⟨1, lit "y"⟩], CurrentLevel := 0 }
          (lit "\n") (lit "\t") := by
  refine ⟨by decide, by decide, by decide, by decide, by decide, by decide⟩

/-! ## Get and GetStringArray -/

/-- C5: for every content and all strings `linebreak` and `whitespace`,
`Get(linebreak, whitespace)` is the concatenation, over the rows in order, of
(`whitespace` repeated `Level` times) ++ `Text` ++ `linebreak`; the output of a content with
at least one row ends with `linebreak`; a content without rows renders to the empty byte
string; and rows `[{0,"x"},{1,"y"}]` with linebreak `"\n"` and whitespace `"\t"` render to
`"x\n\ty\n"`. -/
theorem Get_eq_concat (t : TextContent) (linebreak whitespace : GoString) :
    Get t linebreak whitespace =
        ((elems t.Rows).map
          (fun r => Repeat whitespace r.Level ++ r.Text ++ linebreak)).flatten ∧
      (len t.Rows ≠ 0 → linebreak <:+ Get t linebreak whitespace) ∧
      (len t.Rows = 0 → Get t linebreak whitespace = []) ∧
      Get { Rows := some [⟨0, lit "x"⟩, ⟨1, lit "y"⟩], CurrentLevel := t.CurrentLevel }
        (lit "\n") (lit "\t") = lit "x\n\ty\n" := by
  have hget : Get t linebreak whitespace =
      ((elems t.Rows).map
        (fun r => Repeat whitespace r.Level ++ r.Text ++ linebreak)).flatten := by
    unfold Get
    rw [foldl_render_eq]
    rfl
  refine ⟨hget, ?_, ?_, ?_⟩
  · intro hne
    rw [hget]
    rcases List.eq_nil_or_concat (elems t.Rows) with h | ⟨init, last, h⟩
    · simp [len, h] at hne
    · rw [h]
      simp only [List.concat_eq_append, List.map_append, List.flatten_append, List.map_cons,
        List.map_nil, List.flatten_cons, List.flatten_nil, List.append_nil]
      exact ⟨(List.map (fun r => Repeat whitespace r.Level ++ r.Text ++ linebreak)
        init).flatten ++ (Repeat whitespace last.Level ++ last.Text), by
          simp [List.append_assoc]⟩
  · intro h0
    rw [hget]
    have : elems t.Rows = [] := List.length_eq_zero.mp h0
    simp [this]
  · simp [Get, elems, TextRow.GetString, Repeat, lit]

theorem Get_eq_concat_witness :
    (len (some [(⟨0, lit "x"⟩ : TextRow), ⟨1, lit "y"⟩]) ≠ 0 ∧
        lit "\n" <:+ Get { Rows := some [⟨0, lit "x"⟩, ⟨1, lit "y"⟩], CurrentLevel := 0 }
          (lit "\n") (lit "\t")) ∧
      (len (NewTextContent).Rows = 0 ∧ Get NewTextContent (lit "\n") (lit "\t") = []) :=
  ⟨⟨by decide,
      (Get_eq_concat { Rows := some [⟨0, lit "x"⟩, ⟨1, lit "y"⟩], CurrentLevel := 0 }
        (lit "\n") (lit "\t")).2.1 (by decide)⟩,
    ⟨by decide, (Get_eq_concat NewTextContent (lit "\n") (lit "\t")).2.2.1 (by decide)⟩⟩

/-- C6: for every content and every whitespace string, `GetStringArray(whitespace)`
returns a sequence whose length is `GetTotalLines()` and whose i-th element is
(`whitespace` repeated `Rows[i].Level` times) ++ `Rows[i].Text`, in row order and with no
linebreak appended; the content is the same after the call. -/
theorem GetStringArray_spec (t : TextContent) (whitespace : GoString) :
    (GetStringArray t whitespace).1.length = GetTotalLines t ∧
      (∀ i : Nat, (GetStringArray t whitespace).1[i]? =
        (elems t.Rows)[i]?.map (fun r => Repeat whitespace r.Level ++ r.Text)) ∧
      (GetStringArray t whitespace).1 =
        (elems t.Rows).map (fun r => Repeat whitespace r.Level ++ r.Text) ∧
      (GetStringArray t whitespace).2 = t := by
  have h : (GetStringArray t whitespace).1 =
      (elems t.Rows).map (fun r => Repeat whitespace r.Level ++ r.Text) := by
    simp [GetStringArray, foldl_array_eq]
  refine ⟨?_, ?_, h, rfl⟩
  · rw [h]; simp [GetTotalLines, len]
  · intro i
    rw [h]; simp

/-! ## Writeln, Write and the level cursor -/

/-- C7: for all strings `a`, `b`, `c` and every whitespace `ws`, on a fresh content
(`NewTextContent()`, which is the zero value `TextContent{}`) the sequence `Writeln(a);
PushLevel(); Writeln(b); PopLevel(); Writeln(c)` followed by `GetStringArray(ws)` yields
exactly `[a, ws ++ b, c]`; with `ws = "  "` and the texts `"a"`, `"b"`, `"c"` it yields
`["a", "  b", "c"]`. -/
theorem push_pop_example (a b c ws : GoString) :
    (GetStringArray
        (Writeln (PopLevel (Writeln (PushLevel (Writeln NewTextContent a)) b)) c) ws).1
      = [a, ws ++ b, c] ∧
    (GetStringArray
        (Writeln (PopLevel (Writeln (PushLevel
          (Writeln { Rows := none, CurrentLevel := 0 } a)) b)) c) ws).1
      = [a, ws ++ b, c] ∧
    (GetStringArray
        (Writeln (PopLevel (Writeln (PushLevel (Writeln NewTextContent (lit "a")))
          (lit "b"))) (lit "c")) (lit "  ")).1
      = [lit "a", lit "  b", lit "c"] := by
  refine ⟨?_, ?_, by decide⟩ <;>
    simp [GetStringArray, Writeln, PushLevel, PopLevel, NewTextContent, append, elems,
      TextRow.GetString, Repeat]

/-- C8: starting from an empty content (`NewTextContent()`, or any content after `Reset`),
after every finite sequence of `Writeln`, `PushLevel`, `PopLevel` and `SetLevel` calls
`GetTotalLines()` is the number of `Writeln` calls in the sequence (from an arbitrary
content, the count grows by that number); and each `Writeln(text)` increases
`GetTotalLines()` by exactly one, appending the row `{CurrentLevel, text}` at the end and
leaving all earlier rows and `CurrentLevel` unchanged. -/
theorem GetTotalLines_counts_Writeln (t : TextContent) (ops : List LevelOp)
    (text : GoString) :
    GetTotalLines (runOps NewTextContent ops) = numWriteln ops ∧
      GetTotalLines (runOps (Reset t) ops) = numWriteln ops ∧
      GetTotalLines (runOps t ops) = GetTotalLines t + numWriteln ops ∧
      GetTotalLines (Writeln t text) = GetTotalLines t + 1 ∧
      elems (Writeln t text).Rows =
        elems t.Rows ++ [{ Level := t.CurrentLevel, Text := text }] ∧
      (Writeln t text).CurrentLevel = t.CurrentLevel := by
  refine ⟨?_, ?_, len_runOps t ops, ?_, rfl, rfl⟩
  · have := len_runOps NewTextContent ops
    simpa [GetTotalLines, NewTextContent, len, elems] using this
  · have := len_runOps (Reset t) ops
    simpa [GetTotalLines, Reset, len, elems] using this
  · simp [GetTotalLines, Writeln, append, len, elems]

/-- C9: for every text and every `CurrentLevel`, `Write(text)` on a content with no rows
(a nil or an empty `Rows`) gives exactly the state that `Writeln(text)` gives on that
content: the single row `{CurrentLevel, text}` and an unchanged `CurrentLevel`. -/
theorem Write_empty_eq_Writeln (t : TextContent) (text : GoString)
    (h : len t.Rows = 0) :
    Write t text = Writeln t text ∧
      (Write t text).Rows = some [{ Level := t.CurrentLevel, Text := text }] ∧
      (Write t text).CurrentLevel = t.CurrentLevel := by
  have hw : Write t text = Writeln t text := by
    unfold Write
    rw [if_neg (by simp [h])]
  have he : elems t.Rows = [] := List.length_eq_zero.mp h
  refine ⟨hw, ?_, ?_⟩
  · rw [hw]; simp [Writeln, append, he]
  · rw [hw]; rfl

theorem Write_empty_eq_Writeln_witness :
    Write { Rows := none, CurrentLevel := 2 } (lit "x")
        = Writeln { Rows := none, CurrentLevel := 2 } (lit "x") ∧
      (Write { Rows := none, CurrentLevel := 2 } (lit "x")).Rows
        = some [{ Level := 2, Text := lit "x" }] ∧
      (Write { Rows := none, CurrentLevel := 2 } (lit "x")).CurrentLevel = 2 :=
  Write_empty_eq_Writeln { Rows := none, CurrentLevel := 2 } (lit "x") (by decide)

/-- C10: for every content with at least one row and every text, `Write(text)` appends
`text` to the `Text` of the last row and changes nothing else: the row count, the last
row's `Level` (whatever `CurrentLevel` is), every earlier row and `CurrentLevel` are
unchanged. -/
theorem Write_nonempty_appends_to_last (t : TextContent) (text : GoString)
    (h : len t.Rows ≠ 0) :
    ∃ init last, elems t.Rows = init ++ [last] ∧
      elems (Write t text).Rows =
        init ++ [{ Level := last.Level, Text := last.Text ++ text }] ∧
      len (Write t text).Rows = len t.Rows ∧
      (Write t text).CurrentLevel = t.CurrentLevel := by
  rcases List.eq_nil_or_concat (elems t.Rows) with h0 | ⟨init, last, hl⟩
  · simp [len, h0] at h
  · rw [List.concat_eq_append] at hl
    have hw : Write t text =
        { t with Rows := t.Rows.map (fun l => addTextAt l (len t.Rows - 1) text) } := by
      unfold Write
      rw [if_pos h]
    have hlen : len t.Rows - 1 = init.length := by simp [len, hl]
    refine ⟨init, last, hl, ?_, ?_, ?_⟩
    · rw [hw]
      simp only [elems_map_addTextAt, hlen, hl, addTextAt_append_last]
    · rw [hw]
      simp [len, elems_map_addTextAt, length_addTextAt]
    · rw [hw]

theorem Write_nonempty_appends_to_last_witness :
    ∃ init last,
      elems (some [(⟨0, lit "x"⟩ : TextRow), ⟨1, lit "y"⟩]) = init ++ [last] ∧
      elems (Write { Rows := some [⟨0, lit "x"⟩, ⟨1, lit "y"⟩], CurrentLevel := 4 }
          (lit "z")).Rows =
        init ++ [{ Level := last.Level, Text := last.Text ++ lit "z" }] ∧
      len (Write { Rows := some [⟨0, lit "x"⟩, ⟨1, lit "y"⟩], CurrentLevel := 4 }
          (lit "z")).Rows = len (some [(⟨0, lit "x"⟩ : TextRow), ⟨1, lit "y"⟩]) ∧
      (Write { Rows := some [⟨0, lit "x"⟩, ⟨1, lit "y"⟩], CurrentLevel := 4 }
          (lit "z")).CurrentLevel = 4 :=
  Write_nonempty_appends_to_last
    { Rows := some [⟨0, lit "x"⟩, ⟨1, lit "y"⟩], CurrentLevel := 4 } (lit "z") (by decide)

/-! ## PushLevel and PopLevel -/

/-- C11: for every content, `PopLevel` sets `CurrentLevel` to `CurrentLevel-1` when
`CurrentLevel > 0` and leaves it at 0 when `CurrentLevel = 0` (the level never goes below 0
and `PopLevel` at level 0 changes nothing, however often it is called); the rows are
unchanged in both cases. -/
theorem PopLevel_spec (t : TextContent) :
    (0 < t.CurrentLevel →
        (PopLevel t).CurrentLevel = t.CurrentLevel - 1 ∧
          (PopLevel t).CurrentLevel + 1 = t.CurrentLevel) ∧
      (t.CurrentLevel = 0 →
        (PopLevel t).CurrentLevel = 0 ∧ PopLevel t = t ∧ PopLevel (PopLevel t) = PopLevel t) ∧
      (PopLevel t).Rows = t.Rows := by
  refine ⟨?_, ?_, ?_⟩
  · intro h
    have : PopLevel t = { t with CurrentLevel := t.CurrentLevel - 1 } := by
      unfold PopLevel
      rw [if_pos h]
    rw [this]
    exact ⟨rfl, by show t.CurrentLevel - 1 + 1 = t.CurrentLevel; omega⟩
  · intro h
    have : PopLevel t = t := by
      unfold PopLevel
      rw [if_neg (by omega)]
    rw [this, this]
    exact ⟨h, rfl, rfl⟩
  · unfold PopLevel
    split <;> rfl

theorem PopLevel_spec_witness :
    (0 < (3 : Nat) ∧
        (PopLevel { Rows := some [⟨0, lit "x"⟩], CurrentLevel := 3 }).CurrentLevel = 3 - 1) ∧
      ((PopLevel { Rows := some [⟨0, lit "x"⟩], CurrentLevel := 0 }).CurrentLevel = 0 ∧
        PopLevel { Rows := some [⟨0, lit "x"⟩], CurrentLevel := 0 } =
          { Rows := some [⟨0, lit "x"⟩], CurrentLevel := 0 }) :=
  ⟨⟨by decide,
      ((PopLevel_spec { Rows := some [⟨0, lit "x"⟩], CurrentLevel := 3 }).1 (by decide)).1⟩,
    ⟨((PopLevel_spec { Rows := some [⟨0, lit "x"⟩], CurrentLevel := 0 }).2.1 rfl).1,
      ((PopLevel_spec { Rows := some [⟨0, lit "x"⟩], CurrentLevel := 0 }).2.1 rfl).2.1⟩⟩

/-- C12: for every content whose `CurrentLevel` is less than 255 (the maximum of `uint8`),
`PushLevel` followed by `PopLevel` gives back exactly the prior state: `GetLevel()` is the
starting level and the rows are unchanged. -/
theorem PopLevel_PushLevel (t : TextContent) (h : t.CurrentLevel < 255) :
    PopLevel (PushLevel t) = t ∧
      GetLevel (PopLevel (PushLevel t)) = GetLevel t ∧
      (PopLevel (PushLevel t)).Rows = t.Rows := by
  have hmod : (t.CurrentLevel + 1) % 256 = t.CurrentLevel + 1 := Nat.mod_eq_of_lt (by omega)
  have : PopLevel (PushLevel t) = t := by
    unfold PopLevel PushLevel
    simp only [hmod]
    rw [if_pos (by omega)]
    simp
  rw [this]
  exact ⟨rfl, rfl, rfl⟩

theorem PopLevel_PushLevel_witness :
    PopLevel (PushLevel { Rows := some [⟨0, lit "x"⟩], CurrentLevel := 254 }) =
        { Rows := some [⟨0, lit "x"⟩], CurrentLevel := 254 } ∧
      GetLevel (PopLevel (PushLevel { Rows := some [⟨0, lit "x"⟩], CurrentLevel := 254 })) =
        GetLevel { Rows := some [⟨0, lit "x"⟩], CurrentLevel := 254 } ∧
      (PopLevel (PushLevel { Rows := some [⟨0, lit "x"⟩], CurrentLevel := 254 })).Rows =
        some [⟨0, lit "x"⟩] :=
  PopLevel_PushLevel { Rows := some [⟨0, lit "x"⟩], CurrentLevel := 254 } (by decide)

/-- C19: `PushLevel` increments `CurrentLevel` modulo 256: for `CurrentLevel < 255` the
result is `CurrentLevel+1`; for `CurrentLevel = 255` it wraps to 0 without any error, so
from level 255 `PushLevel` followed by `PopLevel` ends at level 0 rather than 255, and a
following `Writeln` records a row at level 0. -/
theorem PushLevel_wraps (t : TextContent) (text : GoString) :
    (PushLevel t).CurrentLevel = (t.CurrentLevel + 1) % 256 ∧
      (PushLevel t).Rows = t.Rows ∧
      (t.CurrentLevel < 255 → (PushLevel t).CurrentLevel = t.CurrentLevel + 1) ∧
      (t.CurrentLevel = 255 →
        (PushLevel t).CurrentLevel = 0 ∧
          (PopLevel (PushLevel t)).CurrentLevel = 0 ∧
          (PopLevel (PushLevel t)).CurrentLevel ≠ 255 ∧
          elems (Writeln (PopLevel (PushLevel t)) text).Rows =
            elems t.Rows ++ [{ Level := 0, Text := text }]) := by
  refine ⟨rfl, rfl, ?_, ?_⟩
  · intro h
    exact Nat.mod_eq_of_lt (by omega)
  · intro h
    have hp : PushLevel t = { t with CurrentLevel := 0 } := by
      unfold PushLevel
      rw [h]
    have hpp : PopLevel (PushLevel t) = { t with CurrentLevel := 0 } := by
      rw [hp]
      rfl
    rw [hpp, hp]
    exact ⟨rfl, rfl, by simp, rfl⟩

theorem PushLevel_wraps_witness :
    (PushLevel { Rows := none, CurrentLevel := 7 }).CurrentLevel = 7 + 1 ∧
      ((PushLevel { Rows := none, CurrentLevel := 255 }).CurrentLevel = 0 ∧
        (PopLevel (PushLevel { Rows := none, CurrentLevel := 255 })).CurrentLevel = 0 ∧
        (PopLevel (PushLevel { Rows := none, CurrentLevel := 255 })).CurrentLevel ≠ 255 ∧
        elems (Writeln (PopLevel (PushLevel { Rows := none, CurrentLevel := 255 }))
            (lit "x")).Rows =
          elems (none : Option (List TextRow)) ++ [{ Level := 0, Text := lit "x" }]) :=
  ⟨(PushLevel_wraps { Rows := none, CurrentLevel := 7 } (lit "x")).2.2.1 (by decide),
    (PushLevel_wraps { Rows := none, CurrentLevel := 255 } (lit "x")).2.2.2 rfl⟩

/-! ## GetJSON -/

/-- C14 (as the code behaves): `GetJSON` never returns an error.  For a content whose
`Rows` is a non-nil slice (after `Reset`, or once a row was written) it emits a JSON array
with one object per row, in row order, each with the fields `Level` and `Text`, and `[]`
when there are no rows.  For a freshly constructed content (`NewTextContent()` or the zero
value), whose `Rows` is nil, it emits `null`, which is not the empty array. -/
theorem GetJSON_fresh_content_is_null (quote : GoString → GoString) (t : TextContent)
    (rows : List TextRow) :
    GetJSON quote NewTextContent = (lit "null", none) ∧
      GetJSON quote { Rows := none, CurrentLevel := t.CurrentLevel } = (lit "null", none) ∧
      (GetJSON quote NewTextContent).1 ≠ lit "[]" ∧
      GetJSON quote (Reset t) = (lit "[]", none) ∧
      (GetJSON quote t).2 = none ∧
      GetJSON quote { Rows := some rows, CurrentLevel := t.CurrentLevel } =
        (lit "[" ++ Join (rows.map (fun r =>
            lit "\x7b\"Level\":" ++ decimal r.Level ++ lit ",\"Text\":" ++ quote r.Text ++
              lit "\x7d")) (lit ",") ++ lit "]", none) := by
  refine ⟨rfl, rfl, ?_, rfl, rfl, rfl⟩
  simp [GetJSON, marshalRows, NewTextContent, lit]

/-! ## Reset -/

theorem elems_append (s : Option (List TextRow)) (r : TextRow) :
    elems (append s r) = elems s ++ [r] := rfl

theorem Op_run_congr (t u : TextContent) (op : Op)
    (hrows : elems t.Rows = elems u.Rows) (hlevel : t.CurrentLevel = u.CurrentLevel) :
    (Op.run t op = none ∧ Op.run u op = none) ∨
      ∃ t' u', Op.run t op = some t' ∧ Op.run u op = some u' ∧
        elems t'.Rows = elems u'.Rows ∧ t'.CurrentLevel = u'.CurrentLevel := by
  have hlen : len t.Rows = len u.Rows := by simp [len, hrows]
  cases op with
  | appendRow r =>
    exact Or.inr ⟨_, _, rfl, rfl, by simp only [AppendRow, elems_append, hrows], hlevel⟩
  | writeln text =>
    refine Or.inr ⟨_, _, rfl, rfl, ?_, hlevel⟩
    simp only [Writeln, elems_append, hrows, hlevel]
  | write text =>
    refine Or.inr ⟨_, _, rfl, rfl, ?_, ?_⟩
    · by_cases h0 : len t.Rows = 0
      · have h0u : len u.Rows = 0 := hlen ▸ h0
        simp only [Write, h0, h0u, ne_eq, not_true_eq_false, if_false, Writeln, elems_append,
          hrows, hlevel]
      · have h0u : len u.Rows ≠ 0 := hlen ▸ h0
        simp only [Write, if_pos h0, if_pos h0u, elems_map_addTextAt, hrows, hlen]
    · by_cases h0 : len t.Rows = 0
      · have h0u : len u.Rows = 0 := hlen ▸ h0
        simp [Write, h0, h0u, Writeln, hlevel]
      · have h0u : len u.Rows ≠ 0 := hlen ▸ h0
        simp [Write, h0, h0u, hlevel]
  | writeTo row text =>
    simp only [Op.run, WriteTo, hlen]
    by_cases hg : row ≥ 0 ∧ row ≤ (len u.Rows : Int)
    · rw [if_pos hg, if_pos hg]
      simp only [indexAddText, hlen]
      by_cases hi : 0 ≤ row - 1 ∧ row - 1 < (len u.Rows : Int)
      · rw [if_pos hi, if_pos hi]
        refine Or.inr ⟨_, _, rfl, rfl, ?_, hlevel⟩
        simp only [elems_map_addTextAt, hrows]
      · rw [if_neg hi, if_neg hi]
        exact Or.inl ⟨rfl, rfl⟩
    · rw [if_neg hg, if_neg hg]
      exact Or.inr ⟨_, _, rfl, rfl, hrows, hlevel⟩
  | pushLevel => exact Or.inr ⟨_, _, rfl, rfl, hrows, by simp [PushLevel, hlevel]⟩
  | popLevel =>
    refine Or.inr ⟨_, _, rfl, rfl, ?_, ?_⟩
    · simp only [PopLevel, hlevel]
      split <;> exact hrows
    · simp only [PopLevel, hlevel]
      split <;> simp [hlevel]
  | setLevel depth => exact Or.inr ⟨_, _, rfl, rfl, hrows, rfl⟩

theorem observe_congr (t u : TextContent) (lb ws : GoString)
    (hrows : elems t.Rows = elems u.Rows) (hlevel : t.CurrentLevel = u.CurrentLevel) :
    observe lb ws t = observe lb ws u := by
  simp [observe, Get, GetStringArray, GetTotalLines, GetLevel, len, hrows, hlevel]

theorem runAll_congr (ops : List Op) (t u : TextContent) (lb ws : GoString)
    (hrows : elems t.Rows = elems u.Rows) (hlevel : t.CurrentLevel = u.CurrentLevel) :
    (runAll t ops).map (observe lb ws) = (runAll u ops).map (observe lb ws) := by
  induction ops generalizing t u with
  | nil => simp [runAll, observe_congr t u lb ws hrows hlevel]
  | cons op ops ih =>
    rcases Op_run_congr t u op hrows hlevel with ⟨h1, h2⟩ | ⟨t', u', h1, h2, hr, hl⟩
    · simp [runAll, h1, h2]
    · simp only [runAll, h1, h2, Option.some_bind]
      exact ih t' u' hr hl

/-- C15: for every content, whatever its rows and `CurrentLevel`, `Reset` leaves it in the
initial state: `GetTotalLines() = 0` and `GetLevel() = 0`, and every subsequent sequence of
`Writeln`/`Write`/`WriteTo`/`PushLevel`/`PopLevel`/`SetLevel` (and `AppendRow`) calls
produces the same `Get`, `GetStringArray`, `GetTotalLines` and `GetLevel` results as the
same sequence applied to a content returned by `NewTextContent` (and panics on the one
exactly when it panics on the other). -/
theorem Reset_behaves_like_new (t : TextContent) (ops : List Op) (lb ws : GoString) :
    GetTotalLines (Reset t) = 0 ∧ GetLevel (Reset t) = 0 ∧
      GetTotalLines NewTextContent = 0 ∧ GetLevel NewTextContent = 0 ∧
      (runAll (Reset t) ops).map (observe lb ws) =
        (runAll NewTextContent ops).map (observe lb ws) :=
  ⟨rfl, rfl, rfl, rfl, runAll_congr ops (Reset t) NewTextContent lb ws rfl rfl⟩

/-! ## Rows are append-only, the cursor is separate -/

theorem getElem?_append_one_keeps (l : List TextRow) (x : TextRow) (i : Nat) (r : TextRow)
    (h : l[i]? = some r) :
    ∃ r', (l ++ [x])[i]? = some r' ∧ r'.Level = r.Level ∧ r.Text <+: r'.Text := by
  have hi : i < l.length := by
    by_contra hge
    rw [List.getElem?_eq_none (by omega)] at h
    cases h
  exact ⟨r, by rw [List.getElem?_append_left hi, h], rfl, List.prefix_refl _⟩

theorem getElem?_addTextAt_keeps (l : List TextRow) (idx : Nat) (text : GoString) (i : Nat)
    (r : TextRow) (h : l[i]? = some r) :
    ∃ r', (addTextAt l idx text)[i]? = some r' ∧ r'.Level = r.Level ∧ r.Text <+: r'.Text := by
  rw [getElem?_addTextAt]
  by_cases hi : i = idx
  · rw [if_pos hi, h]
    exact ⟨_, rfl, rfl, List.prefix_append _ _⟩
  · rw [if_neg hi, h]
    exact ⟨r, rfl, rfl, List.prefix_refl _⟩

theorem WriteTo_some_cases (t t' : TextContent) (row : Int) (text : GoString)
    (h : WriteTo t row text = some t') :
    t' = t ∨ t' = { t with Rows := t.Rows.map (fun l => addTextAt l (row - 1).toNat text) } := by
  unfold WriteTo at h
  split at h
  · unfold indexAddText at h
    split at h
    · simp only [Option.map_some', Option.some.injEq] at h
      exact Or.inr h.symm
    · simp at h
  · simp only [Option.some.injEq] at h
    exact Or.inl h.symm

/-- C17: for every content and every single call among `AppendRow`, `Writeln`, `Write`,
`WriteTo` (with any index for which it does not panic), `PushLevel`, `PopLevel` and
`SetLevel`, the row count does not decrease, and every row that existed before the call is
still at the same index with the same `Level` and with a `Text` of which its previous `Text`
is a prefix: none of these calls removes or reorders rows (`Reset` does remove them). -/
theorem rows_append_only (t t' : TextContent) (op : Op) (h : Op.run t op = some t') :
    len t.Rows ≤ len t'.Rows ∧
      (∀ (i : Nat) (r : TextRow), (elems t.Rows)[i]? = some r →
        ∃ r', (elems t'.Rows)[i]? = some r' ∧ r'.Level = r.Level ∧ r.Text <+: r'.Text) ∧
      len (Reset t).Rows = 0 := by
  have key : ∀ (i : Nat) (r : TextRow), (elems t.Rows)[i]? = some r →
      ∃ r', (elems t'.Rows)[i]? = some r' ∧ r'.Level = r.Level ∧ r.Text <+: r'.Text := by
    intro i r hr
    have same : ∀ u : TextContent, elems u.Rows = elems t.Rows →
        ∃ r', (elems u.Rows)[i]? = some r' ∧ r'.Level = r.Level ∧ r.Text <+: r'.Text := by
      intro u hu
      exact ⟨r, by rw [hu, hr], rfl, List.prefix_refl _⟩
    cases op with
    | appendRow x =>
      cases h
      simp only [AppendRow, elems_append]
      exact getElem?_append_one_keeps _ _ _ _ hr
    | writeln text =>
      cases h
      simp only [Writeln, elems_append]
      exact getElem?_append_one_keeps _ _ _ _ hr
    | write text =>
      cases h
      by_cases h0 : len t.Rows = 0
      · simp only [Write, h0, ne_eq, not_true_eq_false, if_false, Writeln, elems_append]
        exact getElem?_append_one_keeps _ _ _ _ hr
      · simp only [Write, if_pos h0, elems_map_addTextAt]
        exact getElem?_addTextAt_keeps _ _ _ _ _ hr
    | writeTo row text =>
      rcases WriteTo_some_cases t t' row text h with e | e
      · rw [e]
        exact same t rfl
      · rw [e]
        simp only [elems_map_addTextAt]
        exact getElem?_addTextAt_keeps _ _ _ _ _ hr
    | pushLevel =>
      cases h
      exact same _ rfl
    | popLevel =>
      cases h
      apply same
      unfold PopLevel
      split <;> rfl
    | setLevel depth =>
      cases h
      exact same _ rfl
  refine ⟨?_, key, rfl⟩
  unfold len
  by_contra hlt
  have hpos : len t'.Rows < (elems t.Rows).length := by
    unfold len
    omega
  have hget : (elems t.Rows)[len t'.Rows]? = some ((elems t.Rows)[len t'.Rows]) :=
    List.getElem?_eq_getElem hpos
  obtain ⟨r', hr', _⟩ := key _ _ hget
  rw [List.getElem?_eq_none (by unfold len; omega)] at hr'
  cases hr'

theorem rows_append_only_witness :
    len (some [(⟨0, lit "x"⟩ : TextRow), ⟨1, lit "y"⟩]) ≤
        len (some [(⟨0, lit "x"⟩ : TextRow), ⟨1, lit "yz"⟩]) ∧
      (∀ (i : Nat) (r : TextRow),
        (elems (some [(⟨0, lit "x"⟩ : TextRow), ⟨1, lit "y"⟩]))[i]? = some r →
        ∃ r', (elems (some [(⟨0, lit "x"⟩ : TextRow), ⟨1, lit "yz"⟩]))[i]? = some r' ∧
          r'.Level = r.Level ∧ r.Text <+: r'.Text) ∧
      len (Reset { Rows := some [⟨0, lit "x"⟩, ⟨1, lit "y"⟩], CurrentLevel := 0 }).Rows = 0 :=
  rows_append_only { Rows := some [⟨0, lit "x"⟩, ⟨1, lit "y"⟩], CurrentLevel := 0 }
    { Rows := some [⟨0, lit "x"⟩, ⟨1, lit "yz"⟩], CurrentLevel := 0 }
    (.writeTo 2 (lit "z")) (by decide)

theorem Op_run_level (t t' : TextContent) (op : Op) (h : Op.run t op = some t') :
    t'.CurrentLevel = levelStep t.CurrentLevel op := by
  cases op with
  | appendRow x => cases h; rfl
  | writeln text => cases h; rfl
  | write text =>
    cases h
    unfold Write
    split <;> rfl
  | writeTo row text =>
    rcases WriteTo_some_cases t t' row text h with e | e <;> rw [e] <;> rfl
  | pushLevel => cases h; rfl
  | popLevel =>
    cases h
    unfold PopLevel levelStep
    split <;> rfl
  | setLevel depth => cases h; rfl

theorem runAll_level (ops : List Op) (t t' : TextContent) (h : runAll t ops = some t') :
    t'.CurrentLevel = levelAfter t.CurrentLevel ops := by
  induction ops generalizing t with
  | nil =>
    simp only [runAll, Option.some.injEq] at h
    rw [← h]
    rfl
  | cons op ops ih =>
    simp only [runAll] at h
    cases hop : Op.run t op with
    | none => simp [hop] at h
    | some u =>
      rw [hop, Option.some_bind] at h
      rw [ih u h, Op_run_level t u op hop]
      rfl

theorem levelAfter_filter (ops : List Op) (level : Nat) :
    levelAfter level (ops.filter Op.isLevelOp) = levelAfter level ops := by
  induction ops generalizing level with
  | nil => rfl
  | cons op ops ih =>
    cases op <;> simp [List.filter, Op.isLevelOp, levelAfter, levelStep] <;> exact ih _


/-- C18: `PushLevel`, `PopLevel` and `SetLevel` never change `Rows` (so never the `Level`
of a row already written), and `AppendRow`, `Writeln`, `Write` and `WriteTo` never change
`CurrentLevel`; so `CurrentLevel` after any sequence of calls without `Reset` is determined
by the starting level and the `PushLevel`/`PopLevel`/`SetLevel` calls in it alone, and
`SetLevel(d)` followed by `GetLevel()` returns `d`. -/
theorem cursor_and_rows_separate (t : TextContent) (r : TextRow) (text : GoString)
    (row : Int) (d : Nat) :
    ((PushLevel t).Rows = t.Rows ∧ (PopLevel t).Rows = t.Rows ∧
        (SetLevel t d).Rows = t.Rows) ∧
      ((AppendRow t r).CurrentLevel = t.CurrentLevel ∧
        (Writeln t text).CurrentLevel = t.CurrentLevel ∧
        (Write t text).CurrentLevel = t.CurrentLevel ∧
        (∀ t', WriteTo t row text = some t' → t'.CurrentLevel = t.CurrentLevel)) ∧
      (∀ (ops : List Op) (t' : TextContent), runAll t ops = some t' →
        t'.CurrentLevel = levelAfter t.CurrentLevel (ops.filter Op.isLevelOp)) ∧
      (∀ (ops1 ops2 : List Op) (u t' u' : TextContent),
        ops1.filter Op.isLevelOp = ops2.filter Op.isLevelOp →
        u.CurrentLevel = t.CurrentLevel →
        runAll t ops1 = some t' → runAll u ops2 = some u' →
        t'.CurrentLevel = u'.CurrentLevel) ∧
      GetLevel (SetLevel t d) = d := by
  refine ⟨⟨rfl, ?_, rfl⟩, ⟨rfl, rfl, ?_, ?_⟩, ?_, ?_, rfl⟩
  · unfold PopLevel
    split <;> rfl
  · unfold Write
    split <;> rfl
  · intro t' h
    exact Op_run_level t t' (.writeTo row text) h
  · intro ops t' h
    rw [levelAfter_filter]
    exact runAll_level ops t t' h
  · intro ops1 ops2 u t' u' hf hl h1 h2
    rw [runAll_level ops1 t t' h1, runAll_level ops2 u u' h2, hl,
      ← levelAfter_filter ops1, ← levelAfter_filter ops2, hf]

theorem cursor_and_rows_separate_witness :
    (WriteTo { Rows := some [⟨0, lit "x"⟩], CurrentLevel := 5 } 1 (lit "y") =
          some { Rows := some [⟨0, lit "xy"⟩], CurrentLevel := 5 } ∧
        ({ Rows := some [⟨0, lit "xy"⟩], CurrentLevel := 5 } : TextContent).CurrentLevel = 5) ∧
      (runAll { Rows := some [⟨0, lit "x"⟩], CurrentLevel := 5 }
            [.pushLevel, .writeln (lit "a"), .setLevel 9, .write (lit "b"), .popLevel] =
          some { Rows := some [⟨0, lit "x"⟩, ⟨6, lit "ab"⟩], CurrentLevel := 8 } ∧
        ({ Rows := some [⟨0, lit "x"⟩, ⟨6, lit "ab"⟩], CurrentLevel := 8 } :
            TextContent).CurrentLevel =
          levelAfter 5 (List.filter Op.isLevelOp
            [.pushLevel, .writeln (lit "a"), .setLevel 9, .write (lit "b"), .popLevel])) ∧
      ({ Rows := some [⟨0, lit "x"⟩, ⟨6, lit "ab"⟩], CurrentLevel := 8 } :
          TextContent).CurrentLevel =
        ({ Rows := none, CurrentLevel := 8 } : TextContent).CurrentLevel :=
  ⟨⟨by decide,
      (cursor_and_rows_separate { Rows := some [⟨0, lit "x"⟩], CurrentLevel := 5 }
        ⟨0, []⟩ (lit "y") 1 0).2.1.2.2.2 _ (by decide)⟩,
    ⟨by decide,
      (cursor_and_rows_separate { Rows := some [⟨0, lit "x"⟩], CurrentLevel := 5 }
        ⟨0, []⟩ (lit "y") 1 0).2.2.1
        [.pushLevel, .writeln (lit "a"), .setLevel 9, .write (lit "b"), .popLevel] _
        (by decide)⟩,
    (cursor_and_rows_separate { Rows := some [⟨0, lit "x"⟩], CurrentLevel := 5 }
        ⟨0, []⟩ (lit "y") 1 0).2.2.2.1
      [.pushLevel, .writeln (lit "a"), .setLevel 9, .write (lit "b"), .popLevel]
      [.pushLevel, .setLevel 9, .popLevel]
      { Rows := none, CurrentLevel := 5 } _ _ (by decide) rfl (by decide) (by decide)⟩

/-! ## Reading rows with an empty whitespace unit -/

theorem elems_ReadFile (fs : FileSystem) (path ws lb data : GoString)
    (h : fs path = some data) :
    (ReadFile fs path ws lb).2 = none ∧
      elems (ReadFile fs path ws lb).1.Rows =
        (Split data lb).map (fun seg => NewTextRowFromString seg ws) := by
  have hread : ReadFile fs path ws lb =
      ((Split data lb).foldl
        (fun c line => AppendRow c (NewTextRowFromString line ws)) NewTextContent, none) := by
    unfold ReadFile ioReadFile
    rw [h]
  rw [hread]
  refine ⟨rfl, ?_⟩
  exact elems_foldl_AppendRow (fun line => NewTextRowFromString line ws) (Split data lb)
    NewTextContent

/-- C16: for every string `raw`, constructing a row from `raw` with the empty string as
whitespace unit returns (the constructor is a total function) level 0 and text `raw`;
consequently `ReadFile` with whitespace `""` returns on every file, without error, rows
that all have level 0 and whose texts are the segments of the split, in order. -/
theorem empty_whitespace_gives_level_zero (raw : GoString) (fs : FileSystem)
    (path lb data : GoString) (h : fs path = some data) :
    NewTextRowFromString raw [] = { Level := 0, Text := raw } ∧
      (ReadFile fs path [] lb).2 = none ∧
      elems (ReadFile fs path [] lb).1.Rows =
        (Split data lb).map (fun seg => { Level := 0, Text := seg }) ∧
      (∀ r ∈ elems (ReadFile fs path [] lb).1.Rows, r.Level = 0) := by
  have hrow : ∀ seg : GoString, NewTextRowFromString seg [] = { Level := 0, Text := seg } := by
    intro seg
    unfold NewTextRowFromString
    rw [if_pos rfl]
  have hrows := (elems_ReadFile fs path [] lb data h).2
  simp only [hrow] at hrows
  refine ⟨hrow raw, (elems_ReadFile fs path [] lb data h).1, hrows, ?_⟩
  intro r hr
  rw [hrows] at hr
  obtain ⟨seg, _, rfl⟩ := List.mem_map.mp hr
  rfl

theorem empty_whitespace_gives_level_zero_witness :
    NewTextRowFromString (lit "  x") [] = { Level := 0, Text := lit "  x" } ∧
      (ReadFile (fun _ => some (lit " a\n  b")) (lit "f") [] (lit "\n")).2 = none ∧
      elems (ReadFile (fun _ => some (lit " a\n  b")) (lit "f") [] (lit "\n")).1.Rows =
        (Split (lit " a\n  b") (lit "\n")).map (fun seg => { Level := 0, Text := seg }) ∧
      (∀ r ∈ elems (ReadFile (fun _ => some (lit " a\n  b")) (lit "f") []
          (lit "\n")).1.Rows, r.Level = 0) :=
  empty_whitespace_gives_level_zero (lit "  x") (fun _ => some (lit " a\n  b")) (lit "f")
    (lit "\n") (lit " a\n  b") rfl

/-! ## Lemmas on Index, Count and Split -/

theorem Index_nil (sep : GoString) (hsep : sep ≠ []) : Index [] sep = none := by
  cases sep with
  | nil => exact absurd rfl hsep
  | cons b bs => rfl

theorem Index_some_prefix (s sep : GoString) (m : Nat) (h : Index s sep = some m) :
    sep <+: s.drop m ∧ m ≤ s.length := by
  induction s generalizing m with
  | nil =>
    simp only [Index] at h
    split at h
    · rename_i hp
      cases h
      exact ⟨(HasPrefix_iff _ _).mp hp, Nat.le_refl _⟩
    · cases h
  | cons b s ih =>
    simp only [Index] at h
    split at h
    · rename_i hp
      cases h
      exact ⟨(HasPrefix_iff _ _).mp hp, Nat.zero_le _⟩
    · cases hi : Index s sep with
      | none => simp [hi] at h
      | some m' =>
        simp [hi] at h
        subst h
        obtain ⟨h1, h2⟩ := ih m' hi
        exact ⟨by simpa using h1, by simpa using h2⟩

theorem Index_some_bound (s sep : GoString) (m : Nat) (h : Index s sep = some m) :
    m + sep.length ≤ s.length := by
  obtain ⟨hp, hm⟩ := Index_some_prefix s sep m h
  have := hp.length_le
  simp only [List.length_drop] at this
  omega

/-- `Index` finds the first instance: an instance at position `j` means a result of at
most `j`. -/
theorem Index_le_of_prefix (s sep : GoString) (j : Nat) (hj : j ≤ s.length)
    (hp : sep <+: s.drop j) : ∃ m, Index s sep = some m ∧ m ≤ j := by
  induction s generalizing j with
  | nil =>
    have : j = 0 := by simpa using hj
    subst this
    refine ⟨0, ?_, Nat.le_refl _⟩
    simp only [Index]
    rw [if_pos ((HasPrefix_iff _ _).mpr (by simpa using hp))]
  | cons b s ih =>
    by_cases h0 : HasPrefix (b :: s) sep = true
    · exact ⟨0, by simp only [Index]; rw [if_pos h0], Nat.zero_le _⟩
    · cases j with
      | zero => exact absurd ((HasPrefix_iff _ _).mpr (by simpa using hp)) h0
      | succ j =>
        obtain ⟨m, hm, hle⟩ := ih j (by simpa using hj) (by simpa using hp)
        refine ⟨m + 1, ?_, by omega⟩
        simp only [Index]
        rw [if_neg h0, hm]
        rfl

theorem countLoop_acc (sep : GoString) (fuel : Nat) (s : GoString) (n : Nat) :
    countLoop sep fuel s n = n + countLoop sep fuel s 0 := by
  induction fuel generalizing s n with
  | zero => rfl
  | succ fuel ih =>
    simp only [countLoop]
    cases Index s sep with
    | none => rfl
    | some i =>
      simp only
      rw [ih _ (n + 1), ih _ (0 + 1)]
      omega

theorem countLoop_le (sep : GoString) (fuel : Nat) (s : GoString) :
    countLoop sep fuel s 0 ≤ fuel := by
  induction fuel generalizing s with
  | zero => exact Nat.le_refl _
  | succ fuel ih =>
    simp only [countLoop]
    cases Index s sep with
    | none => exact Nat.zero_le _
    | some i =>
      simp only
      rw [countLoop_acc]
      have := ih (s.drop (i + sep.length))
      omega

theorem length_splitLoop_countLoop (sep : GoString) (fuel : Nat) (s : GoString) :
    (splitLoop sep (countLoop sep fuel s 0) s).length = countLoop sep fuel s 0 + 1 := by
  induction fuel generalizing s with
  | zero => rfl
  | succ fuel ih =>
    simp only [countLoop]
    cases hi : Index s sep with
    | none => rfl
    | some i =>
      simp only
      rw [countLoop_acc, Nat.add_comm 1]
      simp only [Nat.zero_add, splitLoop, hi, List.length_cons, ih]

/-- The bound `Count(s, sep)` of the loop in `genSplit` is enough: the loop ends because
`sep` no longer occurs, and its result is the complete literal split. -/
theorem splitLoop_countLoop_IsSplit (sep : GoString) (hsep : sep ≠ []) (fuel : Nat)
    (s : GoString) (hfuel : s.length ≤ fuel) :
    IsSplit sep s (splitLoop sep (countLoop sep fuel s 0) s) := by
  induction fuel generalizing s with
  | zero =>
    have : s = [] := List.length_eq_zero.mp (Nat.le_zero.mp hfuel)
    subst this
    exact IsSplit.last [] (Index_nil sep hsep)
  | succ fuel ih =>
    simp only [countLoop]
    cases hi : Index s sep with
    | none => exact IsSplit.last s hi
    | some i =>
      simp only
      rw [countLoop_acc, Nat.add_comm 1]
      simp only [Nat.zero_add, splitLoop, hi]
      apply IsSplit.cut s i _ hi
      apply ih
      have := Index_some_bound s sep i hi
      have hpos : 0 < sep.length := List.length_pos.mpr hsep
      simp only [List.length_drop]
      omega

theorem Split_eq_splitLoop (s sep : GoString) (hsep : sep ≠ []) :
    Split s sep = splitLoop sep (countLoop sep s.length s 0) s := by
  unfold Split Count
  rw [if_neg hsep, if_neg hsep]
  have := countLoop_le sep s.length s
  rw [Nat.min_eq_left (by omega), Nat.add_sub_cancel]

theorem Split_IsSplit (s sep : GoString) (hsep : sep ≠ []) : IsSplit sep s (Split s sep) := by
  rw [Split_eq_splitLoop s sep hsep]
  exact splitLoop_countLoop_IsSplit sep hsep s.length s (Nat.le_refl _)

theorem length_Split (s sep : GoString) (hsep : sep ≠ []) :
    (Split s sep).length = Count s sep + 1 := by
  rw [Split_eq_splitLoop s sep hsep]
  unfold Count
  rw [if_neg hsep]
  exact length_splitLoop_countLoop sep s.length s

theorem IsSplit_unique (sep s : GoString) (segs segs' : List GoString)
    (h : IsSplit sep s segs) (h' : IsSplit sep s segs') : segs = segs' := by
  induction h generalizing segs' with
  | last s hi =>
    cases h' with
    | last _ _ => rfl
    | cut _ m _ hm _ => rw [hi] at hm; cases hm
  | cut s m segs hm _ ih =>
    cases h' with
    | last _ hi => rw [hi] at hm; cases hm
    | cut _ m' segs'' hm' hrest =>
      rw [hm] at hm'
      cases hm'
      rw [ih _ hrest]

theorem IsSplit_ne_nil (sep s : GoString) (segs : List GoString) (h : IsSplit sep s segs) :
    segs ≠ [] := by
  cases h <;> simp

theorem getLast?_cons_of_ne_nil (x : GoString) (segs : List GoString) (h : segs ≠ []) :
    (x :: segs).getLast? = segs.getLast? := by
  cases segs with
  | nil => exact absurd rfl h
  | cons y ys => rfl

/-- For a separator that cannot overlap itself, the literal split of a string that ends
with the separator ends with the empty segment. -/
theorem IsSplit_trailing (sep : GoString) (hsep : sep ≠ []) (hfree : SelfOverlapFree sep)
    (data : GoString) (segs : List GoString) (h : IsSplit sep data segs) :
    ∀ s : GoString, data = s ++ sep → segs.getLast? = some [] := by
  induction h with
  | last data hi =>
    intro s hs
    obtain ⟨m, hm, _⟩ := Index_le_of_prefix data sep s.length (by simp [hs])
      (by rw [hs, List.drop_left])
    rw [hi] at hm
    cases hm
  | cut data m segs hm hrest ih =>
    intro s hs
    obtain ⟨m', hm', hle⟩ := Index_le_of_prefix data sep s.length (by simp [hs])
      (by rw [hs, List.drop_left])
    rw [hm] at hm'
    cases hm'
    have hne := IsSplit_ne_nil _ _ _ hrest
    rw [getLast?_cons_of_ne_nil _ _ hne]
    by_cases hlast : m = s.length
    · have hnil : data.drop (m + sep.length) = [] := by
        rw [hs, hlast, ← List.length_append]
        exact List.drop_length _
      rw [hnil] at hrest
      rw [IsSplit_unique sep [] _ _ hrest (IsSplit.last [] (Index_nil sep hsep))]
      rfl
    · have hlt : m < s.length := by omega
      have hfit : m + sep.length ≤ s.length := by
        by_contra hover
        obtain ⟨⟨t, ht⟩, _⟩ := Index_some_prefix data sep m hm
        rw [hs, List.drop_append_of_le_length (by omega)] at ht
        have hk : (s.drop m).length = s.length - m := List.length_drop _ _
        have h1 : (sep ++ t).drop (s.length - m) = sep.drop (s.length - m) ++ t :=
          List.drop_append_of_le_length (by omega)
        have h2 : (s.drop m ++ sep).drop (s.length - m) = sep := by
          rw [← hk, List.drop_left]
        rw [ht, h2] at h1
        exact hfree (s.length - m) (by omega) (by omega) ⟨t, h1.symm⟩
      apply ih (s.drop (m + sep.length))
      rw [hs, List.drop_append_of_le_length hfit]

theorem SelfOverlapFree_singleton (b : UInt8) : SelfOverlapFree [b] := by
  intro k hk hlt
  simp only [List.length_singleton] at hlt
  omega

theorem Index_singleton_of_not_mem (b : UInt8) (x rest : GoString) (hx : b ∉ x) :
    Index (x ++ b :: rest) [b] = some x.length := by
  induction x with
  | nil => simp [Index, HasPrefix]
  | cons a x ih =>
    have hab : a ≠ b := fun e => hx (e ▸ List.mem_cons_self _ _)
    have hx' : b ∉ x := fun hm => hx (List.mem_cons_of_mem _ hm)
    have hp : HasPrefix (a :: (x ++ b :: rest)) [b] = false := by
      simp [HasPrefix, List.isPrefixOf, Ne.symm hab]
    rw [List.cons_append, Index, if_neg (by rw [hp]; simp), ih hx']
    rfl

theorem Index_singleton_none (b : UInt8) (x : GoString) (hx : b ∉ x) :
    Index x [b] = none := by
  induction x with
  | nil => rfl
  | cons a x ih =>
    have hab : a ≠ b := fun e => hx (e ▸ List.mem_cons_self _ _)
    have hx' : b ∉ x := fun hm => hx (List.mem_cons_of_mem _ hm)
    have hp : HasPrefix (a :: x) [b] = false := by
      simp [HasPrefix, List.isPrefixOf, Ne.symm hab]
    rw [Index, if_neg (by rw [hp]; simp), ih hx']
    rfl

/-- The literal split of lines that each end with a one-byte separator they do not
contain: the lines, and the empty segment behind the last separator. -/
theorem IsSplit_lines (b : UInt8) (segs : List GoString) (h : ∀ seg ∈ segs, b ∉ seg) :
    IsSplit [b] (segs.map (fun seg => seg ++ [b])).flatten (segs ++ [[]]) := by
  induction segs with
  | nil => exact IsSplit.last [] rfl
  | cons seg segs ih =>
    have hseg := h seg (List.mem_cons_self _ _)
    have hrest := ih (fun s hs => h s (List.mem_cons_of_mem _ hs))
    have hidx : Index ((seg ++ [b]) ++ (segs.map (fun seg => seg ++ [b])).flatten) [b] =
        some seg.length := by
      rw [List.append_assoc]
      exact Index_singleton_of_not_mem b seg _ hseg
    have hcut := IsSplit.cut ((seg ++ [b]) ++ (segs.map (fun seg => seg ++ [b])).flatten)
      seg.length (segs ++ [[]]) hidx (by
        have : (seg ++ [b]).length = seg.length + [b].length := by simp
        rw [← this, List.drop_left]
        exact hrest)
    have htake : ((seg ++ [b]) ++ (segs.map (fun seg => seg ++ [b])).flatten).take seg.length
        = seg := by
      rw [List.append_assoc, List.take_left]
    rw [htake] at hcut
    exact hcut

theorem not_mem_Repeat (b : UInt8) (ws : GoString) (n : Nat) (h : b ∉ ws) :
    b ∉ Repeat ws n := by
  induction n with
  | zero => simp [Repeat]
  | succ n ih => simp [Repeat, h, ih]

theorem stripLoop_Repeat (ws : GoString) (text : GoString)
    (htext : HasPrefix text ws = false) (k fuel level : Nat) (hfuel : k ≤ fuel)
    (hlevel : level + k < 256) :
    stripLoop ws fuel (Repeat ws k ++ text) level = { Level := level + k, Text := text } := by
  induction k generalizing fuel level with
  | zero =>
    cases fuel with
    | zero => rfl
    | succ fuel => simp [stripLoop, Repeat, htext]
  | succ k ih =>
    cases fuel with
    | zero => omega
    | succ fuel =>
      have hp : HasPrefix (Repeat ws (k + 1) ++ text) ws = true := by
        rw [HasPrefix_iff]
        exact ⟨Repeat ws k ++ text, by simp [Repeat, List.append_assoc]⟩
      have hdrop : (Repeat ws (k + 1) ++ text).drop ws.length = Repeat ws k ++ text := by
        have : Repeat ws (k + 1) ++ text = ws ++ (Repeat ws k ++ text) := by
          simp [Repeat, List.append_assoc]
        rw [this, List.drop_left]
      simp only [stripLoop, hp, if_true, hdrop]
      rw [Nat.mod_eq_of_lt (by omega), ih fuel (level + 1) (by omega) (by omega)]
      congr 1
      omega

theorem length_Repeat_ge (ws : GoString) (hws : ws ≠ []) (n : Nat) :
    n ≤ (Repeat ws n).length := by
  induction n with
  | zero => exact Nat.zero_le _
  | succ n ih =>
    have : 0 < ws.length := List.length_pos.mpr hws
    simp only [Repeat, List.length_append]
    omega

/-- Reading back a rendered row: with a non-empty whitespace unit that the text does not
start with, and a level that fits a `uint8`, the constructor recovers level and text. -/
theorem NewTextRowFromString_GetString (r : TextRow) (ws : GoString) (hws : ws ≠ [])
    (hlevel : r.Level < 256) (htext : HasPrefix r.Text ws = false) :
    NewTextRowFromString (r.GetString ws) ws = r := by
  unfold NewTextRowFromString TextRow.GetString
  rw [if_neg hws, stripLoop_Repeat ws r.Text htext r.Level _ 0 _ (by omega)]
  · simp
  · have := length_Repeat_ge ws hws r.Level
    simp only [List.length_append]
    omega

theorem NewTextRowFromString_nil (ws : GoString) :
    NewTextRowFromString [] ws = { Level := 0, Text := [] } := by
  cases ws with
  | nil => rfl
  | cons b bs => rfl

theorem NewTextRowFromString_byte (x : UInt8) (ws : GoString) (h : ws ≠ [x]) :
    NewTextRowFromString [x] ws = { Level := 0, Text := [x] } := by
  cases ws with
  | nil => rfl
  | cons b bs =>
    have hp : HasPrefix [x] (b :: bs) = false := by
      cases bs with
      | nil =>
        have hb : b ≠ x := fun e => h (by rw [e])
        simp [HasPrefix, List.isPrefixOf, hb]
      | cons b' bs' => simp [HasPrefix, List.isPrefixOf]
    simp [NewTextRowFromString, stripLoop, hp]

/-! ## ReadFile: the rows are the segments of the split -/

/-- C13 (as the code behaves): for every file content `data` and every non-empty linebreak
`lb`, `ReadFile` succeeds on an existing file and produces one row per segment of the
literal, left-to-right, non-overlapping split of `data` on `lb`, in split order; the row
count is `Count(data, lb) + 1`, the number of non-overlapping instances of `lb` plus one,
and never zero.  When `lb` cannot overlap itself (as every one-byte `lb`), a `data` that
ends with `lb` gives a final row with level 0 and empty text.  The data `"a\nb\n"` with
linebreak `"\n"` gives exactly 3 rows, with the texts `"a"`, `"b"`, `""` for every
whitespace unit other than `"a"` and `"b"`. -/
theorem ReadFile_rows_are_split_segments (fs : FileSystem) (path ws lb data : GoString)
    (hlb : lb ≠ []) (hfile : fs path = some data) :
    (ReadFile fs path ws lb).2 = none ∧
      elems (ReadFile fs path ws lb).1.Rows =
        (Split data lb).map (fun seg => NewTextRowFromString seg ws) ∧
      IsSplit lb data (Split data lb) ∧
      GetTotalLines (ReadFile fs path ws lb).1 = Count data lb + 1 ∧
      GetTotalLines (ReadFile fs path ws lb).1 ≠ 0 ∧
      (SelfOverlapFree lb → lb <:+ data →
        (elems (ReadFile fs path ws lb).1.Rows).getLast? = some { Level := 0, Text := [] }) ∧
      (lb.length = 1 → lb <:+ data →
        (elems (ReadFile fs path ws lb).1.Rows).getLast? = some { Level := 0, Text := [] }) ∧
      GetTotalLines (ReadFile (fun _ => some (lit "a\nb\n")) path ws (lit "\n")).1 = 3 ∧
      (ws ≠ lit "a" → ws ≠ lit "b" →
        elems (ReadFile (fun _ => some (lit "a\nb\n")) path ws (lit "\n")).1.Rows =
          [{ Level := 0, Text := lit "a" }, { Level := 0, Text := lit "b" },
            { Level := 0, Text := [] }]) := by
  obtain ⟨herr, hrows⟩ := elems_ReadFile fs path ws lb data hfile
  have hcount : GetTotalLines (ReadFile fs path ws lb).1 = Count data lb + 1 := by
    unfold GetTotalLines len
    rw [hrows, List.length_map, length_Split data lb hlb]
  have hsplit := Split_IsSplit data lb hlb
  have htrail : SelfOverlapFree lb → lb <:+ data →
      (elems (ReadFile fs path ws lb).1.Rows).getLast? = some { Level := 0, Text := [] } := by
    intro hfree ⟨s, hs⟩
    have := IsSplit_trailing lb hlb hfree data _ hsplit s hs.symm
    rw [hrows, List.getLast?_map, this]
    simp [NewTextRowFromString_nil]
  have hex : Split (lit "a\nb\n") (lit "\n") = [lit "a", lit "b", []] := by decide
  obtain ⟨_, hrows'⟩ := elems_ReadFile (fun _ => some (lit "a\nb\n")) path ws (lit "\n")
    (lit "a\nb\n") rfl
  refine ⟨herr, hrows, hsplit, hcount, ?_, htrail, ?_, ?_, ?_⟩
  · rw [hcount]
    omega
  · intro h1
    apply htrail
    obtain ⟨b, hb⟩ := List.length_eq_one.mp h1
    rw [hb]
    exact SelfOverlapFree_singleton b
  · unfold GetTotalLines len
    rw [hrows', hex]
    rfl
  · intro ha hb
    rw [hrows', hex]
    simp only [List.map_cons, List.map_nil]
    rw [show lit "a" = [(97 : UInt8)] from rfl, show lit "b" = [(98 : UInt8)] from rfl] at *
    rw [NewTextRowFromString_byte _ ws ha, NewTextRowFromString_byte _ ws hb,
      NewTextRowFromString_nil]

theorem ReadFile_rows_are_split_segments_witness :
    (ReadFile (fun _ => some (lit "a\nb\n")) (lit "f") (lit "\t") (lit "\n")).2 = none ∧
      GetTotalLines (ReadFile (fun _ => some (lit "a\nb\n")) (lit "f") (lit "\t")
        (lit "\n")).1 = Count (lit "a\nb\n") (lit "\n") + 1 ∧
      (elems (ReadFile (fun _ => some (lit "a\nb\n")) (lit "f") (lit "\t")
        (lit "\n")).1.Rows).getLast? = some { Level := 0, Text := [] } ∧
      elems (ReadFile (fun _ => some (lit "a\nb\n")) (lit "f") (lit "\t") (lit "\n")).1.Rows =
        [{ Level := 0, Text := lit "a" }, { Level := 0, Text := lit "b" },
          { Level := 0, Text := [] }] :=
  ⟨(ReadFile_rows_are_split_segments (fun _ => some (lit "a\nb\n")) (lit "f") (lit "\t")
      (lit "\n") (lit "a\nb\n") (by decide) rfl).1,
    (ReadFile_rows_are_split_segments (fun _ => some (lit "a\nb\n")) (lit "f") (lit "\t")
      (lit "\n") (lit "a\nb\n") (by decide) rfl).2.2.2.1,
    (ReadFile_rows_are_split_segments (fun _ => some (lit "a\nb\n")) (lit "f") (lit "\t")
      (lit "\n") (lit "a\nb\n") (by decide) rfl).2.2.2.2.2.2.1 rfl ⟨lit "a\nb", by decide⟩,
    (ReadFile_rows_are_split_segments (fun _ => some (lit "a\nb\n")) (lit "f") (lit "\t")
      (lit "\n") (lit "a\nb\n") (by decide) rfl).2.2.2.2.2.2.2.2 (by decide) (by decide)⟩

/-- C13 as stated fails: the data `"aaa"` ends with the non-empty linebreak `"aa"`, the read
succeeds, and the split from left to right cuts at position 0 only, so the rows are
`{0, ""}` and `{0, "a"}`: the final row has the text `"a"`, not the empty text. -/
theorem trailing_linebreak_counterexample :
    lit "aa" ≠ [] ∧
      lit "aaa" = lit "a" ++ lit "aa" ∧
      (ReadFile (fun _ => some (lit "aaa")) (lit "f") (lit "\t") (lit "aa")).2 = none ∧
      elems (ReadFile (fun _ => some (lit "aaa")) (lit "f") (lit "\t") (lit "aa")).1.Rows =
        [{ Level := 0, Text := [] }, { Level := 0, Text := lit "a" }] ∧
      ((elems (ReadFile (fun _ => some (lit "aaa")) (lit "f") (lit "\t")
        (lit "aa")).1.Rows).getLast?.map (fun r => r.Text)) ≠ some [] := by
  refine ⟨by decide, by decide, by decide, by decide, by decide⟩

/-! ## The round trip of the rows -/

/-- An instance found in a string is still the first one when the string is extended. -/
theorem Index_append_right (x sep rest : GoString) (m : Nat) (h : Index x sep = some m) :
    Index (x ++ rest) sep = some m := by
  induction x generalizing m with
  | nil =>
    have hp : HasPrefix [] sep = true := by
      cases hq : HasPrefix [] sep with
      | true => rfl
      | false => simp [Index, hq] at h
    have hm : m = 0 := by
      simp only [Index, hp, if_true, Option.some.injEq] at h
      exact h.symm
    have hsep : sep = [] := by
      have := HasPrefix_split [] sep hp
      simpa using this
    subst hm
    subst hsep
    cases rest with
    | nil => rfl
    | cons b s => rfl
  | cons a x ih =>
    by_cases h0 : HasPrefix (a :: x) sep = true
    · have hm : m = 0 := by
        simp only [Index, h0, if_true, Option.some.injEq] at h
        exact h.symm
      subst hm
      have h0' : HasPrefix (a :: (x ++ rest)) sep = true := by
        rw [HasPrefix_iff] at h0 ⊢
        exact h0.trans ⟨rest, rfl⟩
      rw [List.cons_append, Index, if_pos h0']
    · rw [Index, if_neg h0] at h
      cases hi : Index x sep with
      | none => simp [hi] at h
      | some m' =>
        rw [hi] at h
        simp only [Option.map_some', Option.some.injEq] at h
        subst h
        have hbound := Index_some_bound x sep m' hi
        have h0' : ¬ HasPrefix (a :: (x ++ rest)) sep = true := by
          intro hp
          apply h0
          rw [HasPrefix_iff] at hp ⊢
          exact List.prefix_of_prefix_length_le hp ⟨rest, rfl⟩
            (by simp only [List.length_cons]; omega)
        rw [List.cons_append, Index, if_neg h0', ih m' hi]
        rfl

/-- The literal split of lines that each end with the separator, when the separator first
occurs in each line at its end: the lines, and the empty segment behind the last
separator. -/
theorem IsSplit_lines_of_Index (sep : GoString) (hsep : sep ≠ []) (segs : List GoString)
    (h : ∀ seg ∈ segs, Index (seg ++ sep) sep = some seg.length) :
    IsSplit sep (segs.map (fun seg => seg ++ sep)).flatten (segs ++ [[]]) := by
  induction segs with
  | nil => exact IsSplit.last [] (Index_nil sep hsep)
  | cons seg segs ih =>
    have hseg := h seg (List.mem_cons_self _ _)
    have hrest := ih (fun s hs => h s (List.mem_cons_of_mem _ hs))
    have hidx : Index ((seg ++ sep) ++ (segs.map (fun seg => seg ++ sep)).flatten) sep =
        some seg.length := Index_append_right _ _ _ _ hseg
    have hcut := IsSplit.cut ((seg ++ sep) ++ (segs.map (fun seg => seg ++ sep)).flatten)
      seg.length (segs ++ [[]]) hidx (by
        rw [← List.length_append, List.drop_left]
        exact hrest)
    have htake : ((seg ++ sep) ++ (segs.map (fun seg => seg ++ sep)).flatten).take seg.length
        = seg := by
      rw [List.append_assoc, List.take_left]
    rw [htake] at hcut
    exact hcut

/-- A one-byte linebreak that occurs neither in the whitespace unit nor in the text of a
row first occurs, in the rendered row followed by the linebreak, at the end. -/
theorem Index_rendered_row_of_byte (b : UInt8) (ws : GoString) (r : TextRow)
    (hws : b ∉ ws) (htext : b ∉ r.Text) :
    Index (r.GetString ws ++ [b]) [b] = some (r.GetString ws).length := by
  apply Index_singleton_of_not_mem
  intro hmem
  rcases List.mem_append.mp hmem with h | h
  · exact not_mem_Repeat b ws r.Level hws h
  · exact htext h

/-- C20 (as the code behaves): for every content `c` (its levels being `uint8` values),
every non-empty linebreak `lb` and every non-empty whitespace `ws` such that no row text
begins with `ws` and such that either `lb` is a single byte that occurs neither in `ws` nor
in any row text, or, for a linebreak of any length, `lb` first occurs in every rendered row
followed by `lb` at the very end (it occurs in no rendered row and does not straddle the
whitespace units, the text and the linebreak): the split of `c.Get(lb, ws)` on `lb` is the
rendered rows followed by an empty segment, and reading it back the way `ReadFile` does
yields exactly the rows of `c`, with their levels and texts in order, followed by the one
extra row `{0, ""}`; so the content read back from the written file has
`GetTotalLines() = c.GetTotalLines() + 1`, and an empty content reads back as one empty
row. -/
theorem roundtrip_rows (c : TextContent) (fs : FileSystem) (path : GoString) (perm : Nat)
    (lb ws : GoString) (hlb : lb ≠ []) (hws : ws ≠ [])
    (hlevel : ∀ r ∈ elems c.Rows, r.Level < 256)
    (htext : ∀ r ∈ elems c.Rows, HasPrefix r.Text ws = false)
    (hline : (∃ b : UInt8, lb = [b] ∧ b ∉ ws ∧ ∀ r ∈ elems c.Rows, b ∉ r.Text) ∨
      (∀ r ∈ elems c.Rows,
        Index (r.GetString ws ++ lb) lb = some (r.GetString ws).length)) :
    Split (Get c lb ws) lb = (elems c.Rows).map (fun r => r.GetString ws) ++ [[]] ∧
      (Split (Get c lb ws) lb).map (fun seg => NewTextRowFromString seg ws) =
        elems c.Rows ++ [{ Level := 0, Text := [] }] ∧
      (ReadFile (WriteFile c fs path perm lb ws) path ws lb).2 = none ∧
      elems (ReadFile (WriteFile c fs path perm lb ws) path ws lb).1.Rows =
        elems c.Rows ++ [{ Level := 0, Text := [] }] ∧
      GetTotalLines (ReadFile (WriteFile c fs path perm lb ws) path ws lb).1 =
        GetTotalLines c + 1 ∧
      (GetTotalLines c = 0 →
        elems (ReadFile (WriteFile c fs path perm lb ws) path ws lb).1.Rows =
          [{ Level := 0, Text := [] }]) := by
  have hfirst : ∀ r ∈ elems c.Rows,
      Index (r.GetString ws ++ lb) lb = some (r.GetString ws).length := by
    rcases hline with ⟨b, hb, hbws, hbtext⟩ | h
    · intro r hr
      rw [hb]
      exact Index_rendered_row_of_byte b ws r hbws (hbtext r hr)
    · exact h
  have hget : Get c lb ws =
      (((elems c.Rows).map (fun r => r.GetString ws)).map (fun seg => seg ++ lb)).flatten := by
    unfold Get
    rw [foldl_render_eq, List.nil_append, List.map_map]
    rfl
  have hsegs : ∀ seg ∈ (elems c.Rows).map (fun r => r.GetString ws),
      Index (seg ++ lb) lb = some seg.length := by
    intro seg hseg
    obtain ⟨r, hr, rfl⟩ := List.mem_map.mp hseg
    exact hfirst r hr
  have hsplit : Split (Get c lb ws) lb =
      (elems c.Rows).map (fun r => r.GetString ws) ++ [[]] := by
    apply IsSplit_unique lb (Get c lb ws)
    · exact Split_IsSplit _ _ hlb
    · rw [hget]
      exact IsSplit_lines_of_Index lb hlb _ hsegs
  have hparse : (Split (Get c lb ws) lb).map (fun seg => NewTextRowFromString seg ws) =
      elems c.Rows ++ [{ Level := 0, Text := [] }] := by
    rw [hsplit, List.map_append, List.map_map]
    congr 1
    · conv_rhs => rw [← List.map_id (elems c.Rows)]
      apply List.map_congr_left
      intro r hr
      exact NewTextRowFromString_GetString r ws hws (hlevel r hr) (htext r hr)
    · simp [NewTextRowFromString_nil]
  obtain ⟨herr, hrows⟩ := elems_ReadFile (WriteFile c fs path perm lb ws) path ws lb
    (Get c lb ws) (by simp [WriteFile, ioWriteFile])
  rw [hparse] at hrows
  refine ⟨hsplit, hparse, herr, hrows, ?_, ?_⟩
  · unfold GetTotalLines len
    rw [hrows]
    simp
  · intro h0
    have : elems c.Rows = [] := List.length_eq_zero.mp h0
    rw [hrows, this]
    rfl

theorem roundtrip_rows_witness :
    (Split (Get { Rows := some [⟨0, lit "x"⟩, ⟨2, lit "y"⟩], CurrentLevel := 0 } [10]
        (lit "\t")) [10] = [lit "x", lit "\t\ty"] ++ [[]] ∧
      elems (ReadFile (WriteFile { Rows := some [⟨0, lit "x"⟩, ⟨2, lit "y"⟩], CurrentLevel := 0 }
        (fun _ => none) (lit "f") 420 [10] (lit "\t")) (lit "f") (lit "\t") [10]).1.Rows =
        [⟨0, lit "x"⟩, ⟨2, lit "y"⟩] ++ [{ Level := 0, Text := [] }]) ∧
      elems (ReadFile (WriteFile { Rows := some [⟨0, lit "x"⟩, ⟨2, lit "y"⟩], CurrentLevel := 0 }
        (fun _ => none) (lit "f") 420 [0xE2, 0x80, 0xA8] (lit "\t")) (lit "f") (lit "\t")
        [0xE2, 0x80, 0xA8]).1.Rows =
        [⟨0, lit "x"⟩, ⟨2, lit "y"⟩] ++ [{ Level := 0, Text := [] }] :=
  ⟨⟨(roundtrip_rows { Rows := some [⟨0, lit "x"⟩, ⟨2, lit "y"⟩], CurrentLevel := 0 }
        (fun _ => none) (lit "f") 420 [10] (lit "\t") (by decide) (by decide) (by decide)
        (by decide) (Or.inl ⟨10, rfl, by decide, by decide⟩)).1,
      (roundtrip_rows { Rows := some [⟨0, lit "x"⟩, ⟨2, lit "y"⟩], CurrentLevel := 0 }
        (fun _ => none) (lit "f") 420 [10] (lit "\t") (by decide) (by decide) (by decide)
        (by decide) (Or.inl ⟨10, rfl, by decide, by decide⟩)).2.2.2.1⟩,
    (roundtrip_rows { Rows := some [⟨0, lit "x"⟩, ⟨2, lit "y"⟩], CurrentLevel := 0 }
      (fun _ => none) (lit "f") 420 [0xE2, 0x80, 0xA8] (lit "\t") (by decide) (by decide)
      (by decide) (by decide) (Or.inr (by decide))).2.2.2.1⟩

/-- C20 as stated fails: the linebreak U+2028 is a single character, encoded in the three
bytes `E2 80 A8`; with the whitespace unit `E2` and the one row `{1, [80, A8]}` it occurs
neither in the whitespace unit nor in the row text, and the row text does not begin with the
whitespace unit.  The rendering is `E2 80 A8 E2 80 A8`, in which the whitespace unit and the
text together form a linebreak; it is read back as three empty rows, not as the row of `c`
followed by one empty row. -/
theorem roundtrip_rows_counterexample :
    runeSize [0xE2, 0x80, 0xA8] = List.length ([0xE2, 0x80, 0xA8] : GoString) ∧
      ([0xE2] : GoString) ≠ [] ∧
      Contains [0xE2] [0xE2, 0x80, 0xA8] = false ∧
      (∀ r ∈ elems (some [({ Level := 1, Text := [0x80, 0xA8] } : TextRow)]),
        Contains r.Text [0xE2, 0x80, 0xA8] = false ∧ HasPrefix r.Text [0xE2] = false) ∧
      Get { Rows := some [{ Level := 1, Text := [0x80, 0xA8] }], CurrentLevel := 0 }
        [0xE2, 0x80, 0xA8] [0xE2] = [0xE2, 0x80, 0xA8, 0xE2, 0x80, 0xA8] ∧
      elems (ReadFile (WriteFile
        { Rows := some [{ Level := 1, Text := [0x80, 0xA8] }], CurrentLevel := 0 }
        (fun _ => none) (lit "f") 420 [0xE2, 0x80, 0xA8] [0xE2]) (lit "f") [0xE2]
        [0xE2, 0x80, 0xA8]).1.Rows =
        [{ Level := 0, Text := [] }, { Level := 0, Text := [] }, { Level := 0, Text := [] }] ∧
      elems (ReadFile (WriteFile
        { Rows := some [{ Level := 1, Text := [0x80, 0xA8] }], CurrentLevel := 0 }
        (fun _ => none) (lit "f") 420 [0xE2, 0x80, 0xA8] [0xE2]) (lit "f") [0xE2]
        [0xE2, 0x80, 0xA8]).1.Rows ≠
        elems (some [({ Level := 1, Text := [0x80, 0xA8] } : TextRow)]) ++
          [{ Level := 0, Text := [] }] := by
  refine ⟨by decide, by decide, by decide, by decide, by decide, by decide, by decide⟩

end TextBackend
